import Mathlib

/-!
# QuickRank: sort utilities (`utils/qsort.hpp`) and the MART driver (`learning/forests/mart.cc`)

A shallow embedding of the three quicksort variants of `qsort.hpp` and of the
threshold builder and the training loop of `Mart`, with the properties of the
specification stated and proved over it.

Conventions of the embedding.

* A C array is a `List`; subscripts are C `int`s, embedded as `Int`, and every
  read or write of a data array is checked: an access outside the array makes
  the embedded function return `none`.
* The explicit range stack `int stack[size]` with its index `top` is a
  `List Int` whose head is `stack[top]`; `top >= 0` is "the list is not empty".
  The stack has `size` slots: a write past the last slot makes the embedded
  function return `none`.
* `float` values are elements of a linear order (`ℚ` where arithmetic is
  needed): comparisons are those of the reals, there is no NaN.
* `int` and `unsigned int` values are `Int` and `Nat`. The sum of the loop
  test of `Mart::learn` (`uint_add`) and the size with which the scratch
  buffer of `Mart::init` is allocated (`uniqs_capacity`) are computed as the
  `unsigned int` expressions they are, modulo `UINT_MAX + 1`; the other
  counters stay below the sizes they are compared with.
* A `while` loop is a function with a fuel argument that returns `none` when the
  fuel runs out before the loop condition fails.
-/

namespace QuickRank

/-! ## `utils/qsort.hpp` -/

/-- Checked read `xs[k]` with a C `int` subscript. -/
def readAt {α : Type} (xs : List α) (k : Int) : Option α :=
  if 0 ≤ k then xs[k.toNat]? else none

/-- Checked write `xs[k] = v` with a C `int` subscript. -/
def writeAt {α : Type} (xs : List α) (k : Int) (v : α) : Option (List α) :=
  if 0 ≤ k ∧ k < xs.length then some (xs.set k.toNat v) else none

/-- The template `swap(a, b)` of `qsort.hpp` (lines 6-10) called on the two
array cells `xs[i]` and `xs[j]`: `tmp = xs[i]; xs[i] = xs[j]; xs[j] = tmp`. -/
def swap {α : Type} (xs : List α) (i j : Int) : Option (List α) :=
  match readAt xs i, readAt xs j with
  | some a, some b => (writeAt xs i b).bind (fun ys => writeAt ys j a)
  | _, _ => none

/-- The two conditional pushes at the end of the `while` body (lines 26-33),
on the stack `rest` left after the two pops; `i` is the pivot position. -/
def push_ranges (l h i : Int) (rest : List Int) : List Int :=
  let st1 := if i - 1 > l then (i - 1) :: l :: rest else rest
  if i + 1 < h then h :: (i + 1) :: st1 else st1

/-- The constant `UINT_MAX` of `<climits>`, for the 32-bit `unsigned int` of
the counters and members of `Mart` (`m`, `ntrees`, `esr`,
`validation_bestmodel`, `nthresholds`, `sortedsize`). -/
def UINT_MAX : Nat := 4294967295

/-- The sum of two `unsigned int` values: it wraps around modulo
`UINT_MAX + 1`. -/
def uint_add (a b : Nat) : Nat := (a + b) % (UINT_MAX + 1)

/-- The number of `float` cells asked of `malloc` for the scratch buffer
`uniqs` (lines 62-63), `nthresholds == 0 ? sortedsize + 1 : nthresholds + 1`:
both sums are `unsigned int` sums. -/
def uniqs_capacity (sortedsize nthresholds : Nat) : Nat :=
  if nthresholds = 0 then uint_add sortedsize 1 else uint_add nthresholds 1

/-- The constant `FLT_MAX` of `<cfloat>`, `(2 - 2^-23) * 2^127`. -/
def FLT_MAX : ℚ := 340282346638528859811704183484516925440

/-- Checked read `features[idx[j]]` (lines 65, 69, 81, 82). -/
def feature_at (features : List ℚ) (idx : List Nat) (j : Nat) : Option ℚ :=
  match idx[j]? with
  | none => none
  | some k => features[k]?

/-- The write `uniqs[uniqs_size++] = v` into the buffer allocated with
`capacity` cells (lines 62-63); `uniqs_size` is the length of the list. -/
def uniqs_push (capacity : Nat) (uniqs : List ℚ) (v : ℚ) : Option (List ℚ) :=
  if uniqs.length < capacity then some (uniqs ++ [v]) else none

/-- The scan `for (j = 1; j < sortedsize && (nthresholds == 0 || uniqs_size !=
nthresholds + 1); ++j)` of lines 66-72, from the state `j`, `uniqs`. -/
def uniqs_scan (features : List ℚ) (idx : List Nat) (sortedsize nthresholds capacity : Nat) :
    Nat → Nat → List ℚ → Option (List ℚ)
  | 0, j, uniqs =>
    if j < sortedsize ∧ (nthresholds = 0 ∨ uniqs.length ≠ nthresholds + 1) then none
    else some uniqs
  | fuel + 1, j, uniqs =>
    if j < sortedsize ∧ (nthresholds = 0 ∨ uniqs.length ≠ nthresholds + 1) then
      match feature_at features idx j, uniqs[uniqs.length - 1]? with
      | some fval, some last =>
        if last < fval then
          match uniqs_push capacity uniqs fval with
          | none => none
          | some uniqs1 =>
            uniqs_scan features idx sortedsize nthresholds capacity fuel (j + 1) uniqs1
        else uniqs_scan features idx sortedsize nthresholds capacity fuel (j + 1) uniqs
      | _, _ => none
    else some uniqs

/-- The loop `for (unsigned int j = 0; j != nthresholds; t += step)
thresholds[i][j++] = t;` of lines 83-84: the `n` values written, starting
from `t`. -/
def even_steps (step : ℚ) : Nat → ℚ → List ℚ
  | 0, _ => []
  | n + 1, t => t :: even_steps step n (t + step)

/-- The body of the loop over the features in `Mart::init` (lines 57-86) for
one feature column `features` with sorted-index array `idx`: the pair
`(thresholds[i], thresholds_size[i])`. The buffer `uniqs` has here the
`sortedsize + 1`, resp. `nthresholds + 1`, cells that lines 62-63 ask for when
the sum does not wrap around, which is `uniqs_capacity` for `sortedsize` and
`nthresholds` below `UINT_MAX`; the values written do not depend on the size
of the buffer. -/
def init_thresholds (features : List ℚ) (idx : List Nat) (sortedsize nthresholds : Nat) :
    Option (List ℚ × Nat) :=
  let capacity := if nthresholds = 0 then sortedsize + 1 else nthresholds + 1
  match feature_at features idx 0 with
  | none => none
  | some first =>
    match uniqs_push capacity [] first with
    | none => none
    | some uniqs0 =>
      match uniqs_scan features idx sortedsize nthresholds capacity sortedsize 1 uniqs0 with
      | none => none
      | some uniqs =>
        if uniqs.length ≤ nthresholds ∨ nthresholds = 0 then
          match uniqs_push capacity uniqs FLT_MAX with
          | none => none
          | some thr => some (thr, uniqs.length + 1)
        else
          match feature_at features idx (sortedsize - 1) with
          | none => none
          | some last =>
            let step := |last - first| / (nthresholds : ℚ)
            some (even_steps step nthresholds first ++ [FLT_MAX], nthresholds + 1)

/-- The feature column read in the order of the index array. -/
def sorted_column (features : List ℚ) (idx : List Nat) : List ℚ :=
  idx.map (fun k => features.getD k 0)

/-- The array `idx` is a sorted-index permutation of the column: a permutation
of `0..N-1` that orders the column ascending. -/
def IsSortedIndex (features : List ℚ) (idx : List Nat) : Prop :=
  idx.Perm (List.range features.length) ∧ (sorted_column features idx).Sorted (· ≤ ·)

/-- The distinct values of a column, in ascending order (the wording of the
specification, section 4.3). -/
def distinct_values (features : List ℚ) : List ℚ :=
  features.toFinset.sort (· ≤ ·)

/-- The value `mn` is the smallest value of the column. -/
def IsColumnMin (features : List ℚ) (mn : ℚ) : Prop :=
  mn ∈ features ∧ ∀ v ∈ features, mn ≤ v

/-- The value `mx` is the largest value of the column. -/
def IsColumnMax (features : List ℚ) (mx : ℚ) : Prop :=
  mx ∈ features ∧ ∀ v ∈ features, v ≤ mx

/-! ## `Mart::learn`: the boosting loop (`mart.cc`, lines 134-187) -/

/-- Modelled from the spec: the class `Ensemble` is not among the sources. It
is "an ordered sequence of (tree handle, weight) pairs, capacity-bounded by a
configured maximum size" (section 3); `τ` is the type of tree handles. -/
structure Ensemble (τ : Type) where
  capacity : Nat
  trees : List (τ × ℚ)

/-- Modelled from the spec: `ens.set_capacity(n)`, not among the sources. It
sets the "configured maximum size"; the training loop starts "from an empty
ensemble with capacity set to ntrees". -/
def Ensemble.set_capacity {τ : Type} (n : Nat) : Ensemble τ :=
  { capacity := n, trees := [] }

/-- Modelled from the spec: `ens.get_size()`, not among the sources: the
current length of the sequence. -/
def Ensemble.get_size {τ : Type} (e : Ensemble τ) : Nat :=
  e.trees.length

/-- Modelled from the spec: `ens.is_notempty()`, not among the sources: the
sequence has at least one entry. -/
def Ensemble.is_notempty {τ : Type} (e : Ensemble τ) : Bool :=
  !e.trees.isEmpty

/-- Modelled from the spec: `ens.push(tree, weight, ..)`, not among the
sources: "`append(tree, weight)` fails if current length already equals
configured capacity" (section 4.6). -/
def Ensemble.push {τ : Type} (e : Ensemble τ) (tree : τ) (weight : ℚ) :
    Option (Ensemble τ) :=
  if e.trees.length < e.capacity then some { e with trees := e.trees ++ [(tree, weight)] }
  else none

/-- Modelled from the spec: `ens.pop()`, not among the sources: it removes
the trailing entry (truncation "from the tail", sections 3 and 4.6). -/
def Ensemble.pop {τ : Type} (e : Ensemble τ) : Ensemble τ :=
  { e with trees := e.trees.dropLast }

/-- The variables of `Mart::learn` that the loop of lines 138-183 changes:
the ensemble, `best_metric_on_validation`, the member `validation_bestmodel`,
and the list of the iteration numbers `m+1` whose output line received the
new-best marker `" *"` (line 173). -/
structure LearnState (τ : Type) where
  ens : Ensemble τ
  best_metric_on_validation : ℚ
  validation_bestmodel : Nat
  marked : List Nat

/-- The lines 160-175 of the loop body: when a validation set is present
(`validation = some metric`, where `metric m` is the value that
`scorer->evaluate_dataset` returns on it in iteration `m`), the metric is
compared with the best one so far and a new best is recorded. -/
def validation_update {τ : Type} (validation : Option (Nat → ℚ)) (m : Nat)
    (s : LearnState τ) : LearnState τ :=
  match validation with
  | none => s
  | some metric =>
    let metric_on_validation := metric m
    if metric_on_validation > s.best_metric_on_validation
        ∨ s.best_metric_on_validation = 0 then
      { s with best_metric_on_validation := metric_on_validation
               validation_bestmodel := s.ens.get_size - 1
               marked := s.marked ++ [m + 1] }
    else s

/-- The loop `for (unsigned int m = 0; m < ntrees && (esr == 0 || m <=
validation_bestmodel + esr); ++m)` of lines 138-183, from the state `m`, `s`.
The sum `validation_bestmodel + esr` is one of `unsigned int`s and wraps
around (`uint_add`); `m` stays at most `ntrees`.
`fit m` is the tree that `fit_regressor_on_gradient` returns in iteration `m`.
The result is the final value of `m`, that is the number of boosting rounds
executed, and the final state. -/
def learn_loop {τ : Type} (ntrees esr : Nat) (validation : Option (Nat → ℚ))
    (fit : Nat → τ) (shrinkage : ℚ) : Nat → Nat → LearnState τ → Option (Nat × LearnState τ)
  | 0, m, s =>
    if m < ntrees ∧ (esr = 0 ∨ m ≤ uint_add s.validation_bestmodel esr) then none
    else some (m, s)
  | fuel + 1, m, s =>
    if m < ntrees ∧ (esr = 0 ∨ m ≤ uint_add s.validation_bestmodel esr) then
      match s.ens.push (fit m) shrinkage with
      | none => none
      | some ens1 =>
        learn_loop ntrees esr validation fit shrinkage fuel (m + 1)
          (validation_update validation m { s with ens := ens1 })
    else some (m, s)

/-- The rollback `while (ens.is_notempty() && ens.get_size() >
validation_bestmodel + 1) ens.pop();` of lines 186-187. -/
def rollback {τ : Type} (validation_bestmodel : Nat) : Nat → Ensemble τ → Option (Ensemble τ)
  | 0, e =>
    if e.is_notempty ∧ e.get_size > validation_bestmodel + 1 then none else some e
  | fuel + 1, e =>
    if e.is_notempty ∧ e.get_size > validation_bestmodel + 1 then
      rollback validation_bestmodel fuel e.pop
    else some e

/-- The training part of `Mart::learn` (lines 134-187): the initial values,
the boosting loop and the rollback. `bestmodel0` is the value of the member
`validation_bestmodel` on entry (its declaration is in `mart.h`, which is not
among the sources). The result is the number of boosting rounds executed and
the state after the rollback. -/
def learn {τ : Type} (ntrees esr : Nat) (validation : Option (Nat → ℚ))
    (fit : Nat → τ) (shrinkage : ℚ) (bestmodel0 : Nat) : Option (Nat × LearnState τ) :=
  let s0 : LearnState τ :=
    { ens := Ensemble.set_capacity ntrees
      best_metric_on_validation := 0
      validation_bestmodel := bestmodel0
      marked := [] }
  match learn_loop ntrees esr validation fit shrinkage ntrees 0 s0 with
  | none => none
  | some (rounds, s) =>
    match validation with
    | none => some (rounds, s)
    | some _ =>
      match rollback s.validation_bestmodel s.ens.get_size s.ens with
      | none => none
      | some ens1 => some (rounds, { s with ens := ens1 })

/-- The initial values of `Mart::learn` before the loop (lines 134-136):
`best_metric_on_validation = 0.0`, the ensemble after
`ens.set_capacity(ntrees)`, the member `validation_bestmodel` as it is on
entry, and no marker printed yet. -/
def learn_init {τ : Type} (ntrees bestmodel0 : Nat) : LearnState τ :=
  { ens := Ensemble.set_capacity ntrees
    best_metric_on_validation := 0
    validation_bestmodel := bestmodel0
    marked := [] }

/-- One pass through the body of the boosting loop (lines 140-181) in
iteration `m`: the push of the fitted tree (line 149) and the validation
update (lines 160-175). -/
def learn_body {τ : Type} (validation : Option (Nat → ℚ)) (fit : Nat → τ) (shrinkage : ℚ)
    (m : Nat) (s : LearnState τ) : Option (LearnState τ) :=
  match s.ens.push (fit m) shrinkage with
  | none => none
  | some ens1 => some (validation_update validation m { s with ens := ens1 })

/-- The states `m`, `s` that the boosting loop of `Mart::learn` passes
through at its loop test: the initial state, and the state after one more
pass of the body from a state in which the loop condition of line 139
holds. -/
inductive LearnReach {τ : Type} (ntrees esr : Nat) (validation : Option (Nat → ℚ))
    (fit : Nat → τ) (shrinkage : ℚ) (bestmodel0 : Nat) : Nat → LearnState τ → Prop where
  | start : LearnReach ntrees esr validation fit shrinkage bestmodel0 0
      (learn_init ntrees bestmodel0)
  | step (m : Nat) (s s1 : LearnState τ) :
      LearnReach ntrees esr validation fit shrinkage bestmodel0 m s →
      (m < ntrees ∧ (esr = 0 ∨ m ≤ uint_add s.validation_bestmodel esr)) →
      learn_body validation fit shrinkage m s = some s1 →
      LearnReach ntrees esr validation fit shrinkage bestmodel0 (m + 1) s1

/-- The value `v` is the running maximum of the validation metric over the
rounds `0..m-1`: it is the metric of one of these rounds and no metric of
these rounds exceeds it. -/
def IsRunningMax (metric : Nat → ℚ) (m : Nat) (v : ℚ) : Prop :=
  (∃ j, j < m ∧ metric j = v) ∧ ∀ j, j < m → metric j ≤ v

/-! ## `Mart::compute_pseudoresponses` (`mart.cc`, lines 215-220) -/

/-- Checked write `xs[i] = v` with an `unsigned int` subscript. -/
def store_at {α : Type} (xs : List α) (i : Nat) (v : α) : Option (List α) :=
  if i < xs.length then some (xs.set i v) else none

/-- The loop `for(unsigned int i=0; i<nentries; i++) pseudoresponses[i] =
training_dataset->getLabel(i) - trainingmodelscores[i];` of lines 218-219,
from the state `i`, `pseudoresponses`; the first argument is the number
`nentries - i` of iterations still to run. `labels[i]` is what `getLabel(i)`
returns; the subtraction is the one of the value type. -/
def compute_pseudoresponses_for {α : Type} [Sub α] (labels trainingmodelscores : List α) :
    Nat → Nat → List α → Option (List α)
  | 0, _, pseudoresponses => some pseudoresponses
  | n + 1, i, pseudoresponses =>
    match labels[i]?, trainingmodelscores[i]? with
    | some y, some f =>
      match store_at pseudoresponses i (y - f) with
      | none => none
      | some pseudoresponses1 =>
        compute_pseudoresponses_for labels trainingmodelscores n (i + 1) pseudoresponses1
    | _, _ => none

/-- `Mart::compute_pseudoresponses` (lines 215-220): the members
`pseudoresponses` and `trainingmodelscores` after the call, in this order. -/
def compute_pseudoresponses {α : Type} [Sub α] (labels trainingmodelscores
    pseudoresponses : List α) (nentries : Nat) : Option (List α × List α) :=
  match compute_pseudoresponses_for labels trainingmodelscores nentries 0 pseudoresponses with
  | none => none
  | some pseudoresponses1 => some (pseudoresponses1, trainingmodelscores)

/-! ## `Mart::put` (`mart.cc`, lines 19-32) -/

/-- What is inserted into the output stream with `<<`: a string literal, an
`unsigned int` or a floating-point number. -/
inductive Item where
  | text (s : String)
  | uint (n : Nat)
  | real (x : ℚ)

/-- The members of `Mart` that `Mart::put` prints (their declarations are in
`mart.h`, which is not among the sources). -/
structure MartParams where
  ntrees : Nat
  ntreeleaves : Nat
  shrinkage : ℚ
  minleafsupport : Nat
  nthresholds : Nat
  esr : Nat

/-- `Mart::put` (lines 19-32): the lines written to the stream, each line
being the items inserted before its `std::endl`. The string literals are
those of the source, byte for byte: the one of line 21 has the no-break space
U+00A0 (bytes `C2 A0`) after its `#`, where the other lines have a space. -/
def put (c : MartParams) : List (List Item) :=
  let os : List (List Item) :=
    [[Item.text "# Ranker: MART"],
     [Item.text "#\u00a0max no. of trees = ", Item.uint c.ntrees],
     [Item.text "# no. of tree leaves = ", Item.uint c.ntreeleaves],
     [Item.text "# shrinkage = ", Item.real c.shrinkage],
     [Item.text "# min leaf support = ", Item.uint c.minleafsupport]]
  let os1 :=
    if c.nthresholds ≠ 0 then os ++ [[Item.text "# no. of thresholds = ", Item.uint c.nthresholds]]
    else os ++ [[Item.text "# no. of thresholds = unlimited"]]
  if c.esr ≠ 0 then
    os1 ++ [[Item.text "# no. of no gain rounds before early stop = ", Item.uint c.esr]]
  else os1

/-! ## The states of the sort loops -/

/-- Well-formedness of the range stack below the bound `ub`: the entries come
in pairs `h, l` (top first) with `0 ≤ l ≤ h < ub`, and every range lies
entirely to the left of the ranges above it. -/
def StackOK : Int → List Int → Prop
  | _, [] => True
  | _, [_] => False
  | ub, h :: l :: rest => 0 ≤ l ∧ l ≤ h ∧ h < ub ∧ StackOK l rest

/-- Invariant of the unique-value scan over the sorted column `S` at the loop
state `j`, `uniqs` with cap `T`: `uniqs` is strictly increasing, holds exactly
the values of the cells `0..j-1`, and ends with the value of cell `j-1`. -/
structure ScanInv (S : List ℚ) (T j : Nat) (uniqs : List ℚ) : Prop where
  one_le : 1 ≤ j
  le_len : j ≤ S.length
  sorted : uniqs.Sorted (· < ·)
  last : ∃ v, S[j - 1]? = some v ∧ uniqs[uniqs.length - 1]? = some v
  sound : ∀ u ∈ uniqs, ∃ m, m < j ∧ S[m]? = some u
  complete : ∀ m v, m < j → S[m]? = some v → v ∈ uniqs
  len_le : uniqs.length ≤ j
  cap_le : T ≠ 0 → uniqs.length ≤ T + 1

/-- Invariant of the boosting loop at the state `m`, `s`: the ensemble holds
the trees of the rounds `0..m-1`, and, once a round has run with a validation
set, the last marked iteration is `validation_bestmodel + 1` and it is one of
the rounds run. -/
structure LearnInv {τ : Type} (ntrees esr : Nat) (validation : Option (Nat → ℚ))
    (fit : Nat → τ) (shrinkage : ℚ) (m : Nat) (s : LearnState τ) : Prop where
  cap : s.ens.capacity = ntrees
  trees : s.ens.trees = (List.range m).map (fun k => (fit k, shrinkage))
  m_le : m ≤ ntrees
  start : m = 0 → s.best_metric_on_validation = 0 ∧ s.marked = []
  best : validation.isSome → 1 ≤ m →
    s.marked.getLast? = some (s.validation_bestmodel + 1) ∧ s.validation_bestmodel < m

/-- The validation metric of scenario 4: `0.3` in the first round, `0.5` from
the second round on. -/
def scenario4_metric : Nat → ℚ := fun m => if m = 0 then 3 / 10 else 1 / 2

/-! ### Reading and writing cells -/

theorem readAt_some_bounds {α : Type} {xs : List α} {k : Int} {v : α}
    (h : readAt xs k = some v) : 0 ≤ k ∧ k < xs.length := by
  unfold readAt at h
  split at h
  · rename_i hk
    have := (List.getElem?_eq_some.mp h).1
    omega
  · cases h

theorem readAt_none_of_not_bounds {α : Type} (xs : List α) (k : Int)
    (h : ¬ (0 ≤ k ∧ k < xs.length)) : readAt xs k = none := by
  cases hr : readAt xs k with
  | none => rfl
  | some v => exact absurd (readAt_some_bounds hr) h

theorem writeAt_length {α : Type} {xs ys : List α} {i : Int} {v : α}
    (h : writeAt xs i v = some ys) : ys.length = xs.length := by
  unfold writeAt at h
  split at h
  · cases h; simp
  · cases h

theorem swap_length {α : Type} {xs ys : List α} {i j : Int}
    (h : swap xs i j = some ys) : ys.length = xs.length := by
  unfold swap at h
  split at h
  · rename_i a b _ _
    cases hw : writeAt xs i b with
    | none => rw [hw] at h; cases h
    | some zs =>
      rw [hw] at h
      have h2 : writeAt zs j a = some ys := h
      rw [writeAt_length h2, writeAt_length hw]
  · cases h

/-! ### The partition pass -/

theorem StackOK_mono : ∀ (st : List Int) (ub ub' : Int), ub ≤ ub' →
    StackOK ub st → StackOK ub' st
  | [], _, _, _, _ => trivial
  | [_], _, _, _, h => h.elim
  | _ :: _ :: _, _, _, hle, ⟨h1, h2, h3, h4⟩ => ⟨h1, h2, by omega, h4⟩

theorem StackOK_push (ub l h i : Int) (rest : List Int)
    (hok : StackOK ub (h :: l :: rest)) (hli : l ≤ i) (hih : i ≤ h) :
    StackOK ub (push_ranges l h i rest) := by
  obtain ⟨h1, h2, h3, h4⟩ := hok
  have hst1 : StackOK (i + 1)
      (if i - 1 > l then (i - 1) :: l :: rest else rest) := by
    split
    · exact ⟨h1, by omega, by omega, h4⟩
    · exact StackOK_mono rest l (i + 1) (by omega) h4
  unfold push_ranges
  simp only
  split
  · exact ⟨by omega, by omega, h3, hst1⟩
  · exact StackOK_mono _ (i + 1) ub (by omega) hst1

theorem sorted_cells_le (S : List ℚ) (h : S.Sorted (· ≤ ·)) (a b : Nat) (va vb : ℚ)
    (hab : a ≤ b) (ha : S[a]? = some va) (hb : S[b]? = some vb) : va ≤ vb := by
  obtain ⟨ha1, rfl⟩ := List.getElem?_eq_some.mp ha
  obtain ⟨hb1, rfl⟩ := List.getElem?_eq_some.mp hb
  exact h.rel_get_of_le (a := ⟨a, ha1⟩) (b := ⟨b, hb1⟩) hab

theorem feature_at_sorted_column (features : List ℚ) (idx : List Nat)
    (hperm : idx.Perm (List.range features.length)) (j : Nat) :
    feature_at features idx j = (sorted_column features idx)[j]? := by
  unfold feature_at sorted_column
  rw [List.getElem?_map]
  cases h : idx[j]? with
  | none => rfl
  | some k =>
    have hk : k ∈ idx := List.mem_iff_getElem?.mpr ⟨j, h⟩
    have hk2 : k < features.length := List.mem_range.mp (hperm.mem_iff.mp hk)
    simp [List.getD_eq_getElem?_getD, List.getElem?_eq_getElem hk2]

theorem sorted_column_length (features : List ℚ) (idx : List Nat)
    (hperm : idx.Perm (List.range features.length)) :
    (sorted_column features idx).length = features.length := by
  have := hperm.length_eq
  simpa [sorted_column] using this

theorem sorted_column_perm (features : List ℚ) (idx : List Nat)
    (hperm : idx.Perm (List.range features.length)) :
    (sorted_column features idx).Perm features := by
  have h1 : (List.range features.length).map (fun k => features.getD k 0) = features := by
    apply List.ext_getElem?
    intro n
    rw [List.getElem?_map]
    by_cases hn : n < features.length
    · simp [List.getElem?_range hn, List.getD_eq_getElem?_getD, List.getElem?_eq_getElem hn]
    · have h2 : (List.range features.length)[n]? = none :=
        List.getElem?_eq_none (by simp; omega)
      rw [h2, List.getElem?_eq_none (by omega)]
      rfl
  have h2 := hperm.map (fun k => features.getD k 0)
  rw [h1] at h2
  exact h2

/-- A strictly increasing list with the members of the column is the list of
the distinct values of the column. -/
theorem distinct_values_unique (features L : List ℚ) (hs : L.Sorted (· < ·))
    (hmem : ∀ v, v ∈ L ↔ v ∈ features) : L = distinct_values features := by
  have hnd : L.Nodup := hs.nodup
  have hle : L.Sorted (· ≤ ·) := hs.imp (fun h => le_of_lt h)
  have h1 : L.toFinset = features.toFinset := by
    ext v
    simp [hmem v]
  unfold distinct_values
  rw [← h1]
  exact ((List.toFinset_sort (· ≤ ·) hnd).mpr hle).symm

theorem even_steps_length (step : ℚ) : ∀ (n : Nat) (t : ℚ), (even_steps step n t).length = n
  | 0, _ => rfl
  | n + 1, t => by simp [even_steps, even_steps_length step n]

theorem even_steps_getElem? (step : ℚ) : ∀ (n : Nat) (t : ℚ) (j : Nat), j < n →
    (even_steps step n t)[j]? = some (t + j * step)
  | 0, _, _, h => by omega
  | n + 1, t, 0, _ => by simp [even_steps]
  | n + 1, t, j + 1, h => by
    simp only [even_steps, List.getElem?_cons_succ]
    rw [even_steps_getElem? step n (t + step) j (by omega)]
    congr 1
    push_cast
    ring

theorem uniqs_scan_spec (features : List ℚ) (idx : List Nat) (T : Nat)
    (hperm : idx.Perm (List.range features.length))
    (hsorted : (sorted_column features idx).Sorted (· ≤ ·)) :
    ∀ (fuel j : Nat) (uniqs : List ℚ),
      ScanInv (sorted_column features idx) T j uniqs → features.length - j ≤ fuel →
      ∃ out j', uniqs_scan features idx features.length T
          (if T = 0 then features.length + 1 else T + 1) fuel j uniqs = some out ∧
        ScanInv (sorted_column features idx) T j' out ∧
        (j' = features.length ∨ (T ≠ 0 ∧ out.length = T + 1)) := by
  have hSlen := sorted_column_length features idx hperm
  intro fuel
  induction fuel with
  | zero =>
    intro j uniqs inv hfuel
    have hj : j = features.length := by
      have := inv.le_len
      omega
    refine ⟨uniqs, j, ?_, inv, Or.inl hj⟩
    simp [uniqs_scan, hj]
  | succ fuel ih =>
    intro j uniqs inv hfuel
    by_cases hcond : j < features.length ∧ (T = 0 ∨ uniqs.length ≠ T + 1)
    · obtain ⟨hjN, hT⟩ := hcond
      obtain ⟨last, hl1, hl2⟩ := inv.last
      have hjS : j < (sorted_column features idx).length := by omega
      have hf : feature_at features idx j = some (sorted_column features idx)[j] := by
        rw [feature_at_sorted_column features idx hperm, List.getElem?_eq_getElem hjS]
      have hfS : (sorted_column features idx)[j]? = some (sorted_column features idx)[j] :=
        List.getElem?_eq_getElem hjS
      have hle : last ≤ (sorted_column features idx)[j] :=
        sorted_cells_le _ hsorted (j - 1) j _ _ (by omega) hl1 hfS
      have hone := inv.one_le
      by_cases hlt : last < (sorted_column features idx)[j]
      · have hcap : uniqs.length < (if T = 0 then features.length + 1 else T + 1) := by
          have h1 := inv.len_le
          have h2 := inv.cap_le
          split
          · omega
          · rename_i hT0
            have := h2 hT0
            omega
        have inv2 : ScanInv (sorted_column features idx) T (j + 1)
            (uniqs ++ [(sorted_column features idx)[j]]) := by
          refine ⟨by omega, by omega, ?_, ?_, ?_, ?_, ?_, ?_⟩
          · unfold List.Sorted
            rw [List.pairwise_append]
            refine ⟨inv.sorted, List.pairwise_singleton _ _, ?_⟩
            intro u hu b hb
            rw [List.mem_singleton] at hb
            subst hb
            obtain ⟨m, hm, hmS⟩ := inv.sound u hu
            exact lt_of_le_of_lt
              (sorted_cells_le _ hsorted m (j - 1) _ _ (by omega) hmS hl1) hlt
          · refine ⟨(sorted_column features idx)[j], ?_, ?_⟩
            · rw [Nat.add_sub_cancel]; exact hfS
            · simp
          · intro u hu
            rw [List.mem_append, List.mem_singleton] at hu
            rcases hu with hu | hu
            · obtain ⟨m, hm, hmS⟩ := inv.sound u hu
              exact ⟨m, by omega, hmS⟩
            · exact ⟨j, by omega, by rw [hu]; exact hfS⟩
          · intro m v hm hmS
            rw [List.mem_append, List.mem_singleton]
            by_cases hmj : m = j
            · right
              subst hmj
              rw [hfS] at hmS
              exact (Option.some.inj hmS).symm
            · left
              exact inv.complete m v (by omega) hmS
          · simp only [List.length_append, List.length_singleton]
            have := inv.len_le
            omega
          · intro hT0
            simp only [List.length_append, List.length_singleton]
            have := inv.cap_le hT0
            rcases hT with hT | hT
            · exact absurd hT hT0
            · omega
        obtain ⟨out, j', hrun, hinv, hexit⟩ := ih (j + 1) _ inv2 (by omega)
        refine ⟨out, j', ?_, hinv, hexit⟩
        rw [uniqs_scan, if_pos ⟨hjN, hT⟩, hf, hl2]
        simp only [hlt, if_true, uniqs_push, hcap]
        exact hrun
      · have heq : (sorted_column features idx)[j] = last :=
          le_antisymm (not_lt.mp hlt) hle
        have inv2 : ScanInv (sorted_column features idx) T (j + 1) uniqs := by
          refine ⟨by omega, by omega, inv.sorted, ?_, ?_, ?_, ?_, inv.cap_le⟩
          · exact ⟨last, by rw [Nat.add_sub_cancel, hfS, heq], hl2⟩
          · intro u hu
            obtain ⟨m, hm, hmS⟩ := inv.sound u hu
            exact ⟨m, by omega, hmS⟩
          · intro m v hm hmS
            by_cases hmj : m = j
            · subst hmj
              rw [hfS, heq] at hmS
              have hv : last = v := Option.some.inj hmS
              rw [← hv]
              exact List.mem_iff_getElem?.mpr ⟨_, hl2⟩
            · exact inv.complete m v (by omega) hmS
          · have := inv.len_le
            omega
        obtain ⟨out, j', hrun, hinv, hexit⟩ := ih (j + 1) _ inv2 (by omega)
        refine ⟨out, j', ?_, hinv, hexit⟩
        rw [uniqs_scan, if_pos ⟨hjN, hT⟩, hf, hl2]
        simp only [hlt, if_false]
        exact hrun
    · refine ⟨uniqs, j, ?_, inv, ?_⟩
      · rw [uniqs_scan, if_neg hcond]
      · by_cases hjN : j < features.length
        · right
          have : ¬ (T = 0 ∨ uniqs.length ≠ T + 1) := fun h => hcond ⟨hjN, h⟩
          push_neg at this
          exact this
        · left
          have := inv.le_len
          omega

/-- The scan of `Mart::init` on a column of at least one value with a
sorted-index array: it returns, and stops either at the end of the column or
with `T + 1` values collected. -/
theorem uniqs_scan_run (features : List ℚ) (idx : List Nat) (T : Nat)
    (hN : 1 ≤ features.length) (hidx : IsSortedIndex features idx) :
    ∃ first uniqs j', feature_at features idx 0 = some first ∧
      (sorted_column features idx)[0]? = some first ∧
      uniqs_scan features idx features.length T
        (if T = 0 then features.length + 1 else T + 1) features.length 1 [first] =
          some uniqs ∧
      ScanInv (sorted_column features idx) T j' uniqs ∧
      (j' = features.length ∨ (T ≠ 0 ∧ uniqs.length = T + 1)) := by
  obtain ⟨hperm, hsorted⟩ := hidx
  have hSlen := sorted_column_length features idx hperm
  have h0 : 0 < (sorted_column features idx).length := by omega
  have hS0 : (sorted_column features idx)[0]? = some (sorted_column features idx)[0] :=
    List.getElem?_eq_getElem h0
  have inv0 : ScanInv (sorted_column features idx) T 1 [(sorted_column features idx)[0]] := by
    refine ⟨le_rfl, by omega, List.sorted_singleton _, ⟨_, hS0, by simp⟩, ?_, ?_,
      by simp, fun _ => by simp⟩
    · intro u hu
      rw [List.mem_singleton] at hu
      exact ⟨0, by omega, by rw [hu]; exact hS0⟩
    · intro m v hm hmS
      have : m = 0 := by omega
      subst this
      rw [hS0] at hmS
      rw [List.mem_singleton]
      exact (Option.some.inj hmS).symm
  obtain ⟨out, j', hrun, hinv, hexit⟩ :=
    uniqs_scan_spec features idx T hperm hsorted features.length 1 _ inv0 (by omega)
  refine ⟨_, out, j', ?_, hS0, hrun, hinv, hexit⟩
  rw [feature_at_sorted_column features idx hperm, hS0]

theorem ScanInv_mem_features (features : List ℚ) (idx : List Nat) (T j : Nat)
    (uniqs : List ℚ) (hperm : idx.Perm (List.range features.length))
    (inv : ScanInv (sorted_column features idx) T j uniqs) :
    ∀ u ∈ uniqs, u ∈ features := by
  intro u hu
  obtain ⟨m, _, hmS⟩ := inv.sound u hu
  exact (sorted_column_perm features idx hperm).mem_iff.mp
    (List.mem_iff_getElem?.mpr ⟨m, hmS⟩)

theorem ScanInv_full (features : List ℚ) (idx : List Nat) (T : Nat)
    (uniqs : List ℚ) (hperm : idx.Perm (List.range features.length))
    (inv : ScanInv (sorted_column features idx) T features.length uniqs) :
    uniqs = distinct_values features := by
  apply distinct_values_unique features uniqs inv.sorted
  intro v
  refine ⟨ScanInv_mem_features features idx T _ uniqs hperm inv v, fun hv => ?_⟩
  have hvS := (sorted_column_perm features idx hperm).mem_iff.mpr hv
  obtain ⟨m, hm⟩ := List.mem_iff_getElem?.mp hvS
  have hmlt : m < features.length := by
    rw [← sorted_column_length features idx hperm]
    exact (List.getElem?_eq_some.mp hm).1
  exact inv.complete m v hmlt hm

/-- Binned mode of `Mart::init`: with a cap `T > 0` and more than `T` distinct
values, the thresholds are `T` evenly spaced values from the minimum of the
column, with step `(max - min) / T`, followed by the sentinel. -/
theorem init_thresholds_binned (features : List ℚ) (idx : List Nat) (T : Nat)
    (hN : 1 ≤ features.length) (hidx : IsSortedIndex features idx)
    (hT0 : 0 < T) (hU : T < (distinct_values features).length) :
    ∃ mn mx, IsColumnMin features mn ∧ IsColumnMax features mx ∧ mn < mx ∧
      init_thresholds features idx features.length T =
        some (even_steps ((mx - mn) / (T : ℚ)) T mn ++ [FLT_MAX], T + 1) := by
  obtain ⟨first, uniqs, j', hfirst, hS0, hrun, hinv, hexit⟩ :=
    uniqs_scan_run features idx T hN hidx
  obtain ⟨hperm, hsorted⟩ := hidx
  have hSlen := sorted_column_length features idx hperm
  have hSperm := sorted_column_perm features idx hperm
  have hlast : (sorted_column features idx)[features.length - 1]? =
      some (sorted_column features idx)[features.length - 1] :=
    List.getElem?_eq_getElem (by omega)
  have hcells : ∀ v ∈ features, ∃ m, m < features.length ∧
      (sorted_column features idx)[m]? = some v := by
    intro v hv
    obtain ⟨m, hm⟩ := List.mem_iff_getElem?.mp (hSperm.mem_iff.mpr hv)
    exact ⟨m, by rw [← hSlen]; exact (List.getElem?_eq_some.mp hm).1, hm⟩
  have hmin : IsColumnMin features first := by
    refine ⟨hSperm.mem_iff.mp (List.mem_iff_getElem?.mpr ⟨0, hS0⟩), fun v hv => ?_⟩
    obtain ⟨m, _, hm⟩ := hcells v hv
    exact sorted_cells_le _ hsorted 0 m _ _ (by omega) hS0 hm
  have hmax : IsColumnMax features (sorted_column features idx)[features.length - 1] := by
    refine ⟨hSperm.mem_iff.mp (List.mem_iff_getElem?.mpr ⟨_, hlast⟩), fun v hv => ?_⟩
    obtain ⟨m, hmlt, hm⟩ := hcells v hv
    exact sorted_cells_le _ hsorted m _ _ _ (by omega) hm hlast
  have hlt : first < (sorted_column features idx)[features.length - 1] := by
    rcases lt_or_eq_of_le (hmin.2 _ hmax.1) with h | h
    · exact h
    · exfalso
      have hsub : features.toFinset ⊆ {first} := by
        intro v hv
        rw [List.mem_toFinset] at hv
        rw [Finset.mem_singleton]
        exact le_antisymm (by rw [h]; exact hmax.2 v hv) (hmin.2 v hv)
      have hcard := Finset.card_le_card hsub
      rw [Finset.card_singleton] at hcard
      unfold distinct_values at hU
      rw [Finset.length_sort] at hU
      omega
  have hgt : T < uniqs.length := by
    rcases hexit with h | ⟨_, hlen⟩
    · subst h
      rw [ScanInv_full features idx T uniqs hperm hinv]
      exact hU
    · omega
  have hcap0 : ([] : List ℚ).length < (if T = 0 then features.length + 1 else T + 1) := by
    split <;> simp
  have hcond : ¬ (uniqs.length ≤ T ∨ T = 0) := by
    intro h
    rcases h with h | h <;> omega
  have hfl : feature_at features idx (features.length - 1) =
      some (sorted_column features idx)[features.length - 1] := by
    rw [feature_at_sorted_column features idx hperm, hlast]
  refine ⟨first, _, hmin, hmax, hlt, ?_⟩
  simp only [init_thresholds, hfirst, uniqs_push, hcap0, if_true, List.nil_append, hrun,
    hcond, if_false, hfl]
  rw [abs_of_pos (sub_pos.mpr hlt)]

theorem IsColumnMin_unique (features : List ℚ) (a b : ℚ) (ha : IsColumnMin features a)
    (hb : IsColumnMin features b) : a = b :=
  le_antisymm (ha.2 b hb.1) (hb.2 a ha.1)

theorem IsColumnMax_unique (features : List ℚ) (a b : ℚ) (ha : IsColumnMax features a)
    (hb : IsColumnMax features b) : a = b :=
  le_antisymm (hb.2 a ha.1) (ha.2 b hb.1)

theorem scenario_sorted_index : IsSortedIndex [1 / 10, 2 / 5, 2 / 5, 9 / 10] [0, 1, 2, 3] := by
  refine ⟨by decide, ?_⟩
  norm_num [sorted_column]

theorem scenario_distinct_values :
    distinct_values [1 / 10, 2 / 5, 2 / 5, 9 / 10] = [1 / 10, 2 / 5, 9 / 10] :=
  (distinct_values_unique [1 / 10, 2 / 5, 2 / 5, 9 / 10] [1 / 10, 2 / 5, 9 / 10]
    (by norm_num) (by intro v; simp)).symm

theorem scenario_distinct_count :
    1 < (distinct_values [1 / 10, 2 / 5, 2 / 5, 9 / 10]).length := by
  rw [scenario_distinct_values]
  decide

theorem scenario_min : IsColumnMin [1 / 10, 2 / 5, 2 / 5, 9 / 10] (1 / 10) :=
  ⟨by simp, by intro v hv; simp at hv; rcases hv with h | h | h <;> rw [h] <;> norm_num⟩

theorem scenario_max : IsColumnMax [1 / 10, 2 / 5, 2 / 5, 9 / 10] (9 / 10) :=
  ⟨by simp, by intro v hv; simp at hv; rcases hv with h | h | h <;> rw [h] <;> norm_num⟩

/-! ## Claims on the threshold builder -/

/-- C7, binned mode: for every feature column of `N >= 1` values with
ascending sorted-index `idx` and every cap `T > 0` such that the column has
more than `T` distinct values, the threshold array has exactly `T + 1` entries,
entry `j` for `0 <= j < T` is `min + j * step` with `step = (max - min) / T`
(`min`, `max` the smallest and largest value of the column) and entry `T` is
the sentinel `FLT_MAX`; for the column `0.1, 0.4, 0.4, 0.9` with `T = 1` the
result is `[0.1, FLT_MAX]`. -/
theorem thresholds_binned_mode :
    (∀ (features : List ℚ) (idx : List Nat) (T : Nat) (mn mx : ℚ),
      1 ≤ features.length → IsSortedIndex features idx → 0 < T →
      T < (distinct_values features).length →
      IsColumnMin features mn → IsColumnMax features mx →
      ∃ thr, init_thresholds features idx features.length T = some (thr, T + 1) ∧
        thr.length = T + 1 ∧
        (∀ j, j < T → thr[j]? = some (mn + (j : ℚ) * ((mx - mn) / (T : ℚ)))) ∧
        thr[T]? = some FLT_MAX) ∧
    init_thresholds [1 / 10, 2 / 5, 2 / 5, 9 / 10] [0, 1, 2, 3] 4 1 =
      some ([1 / 10, FLT_MAX], 2) := by
  constructor
  · intro features idx T mn mx hN hidx hT0 hU hmn hmx
    obtain ⟨mn', mx', hmn', hmx', _, hrun⟩ :=
      init_thresholds_binned features idx T hN hidx hT0 hU
    rw [IsColumnMin_unique features mn mn' hmn hmn', IsColumnMax_unique features mx mx' hmx hmx']
    refine ⟨_, hrun, by simp [even_steps_length], fun j hj => ?_, ?_⟩
    · rw [List.getElem?_append_left (by rw [even_steps_length]; exact hj)]
      exact even_steps_getElem? _ T mn' j hj
    · rw [List.getElem?_append_right (by rw [even_steps_length])]
      simp [even_steps_length]
  · norm_num [init_thresholds, uniqs_scan, uniqs_push, feature_at, even_steps]

/-- Witness of C7: the general statement applied to the column
`0.1, 0.4, 0.4, 0.9` with `T = 1`, minimum `0.1` and maximum `0.9`. -/
theorem thresholds_binned_mode_witness :
    1 ≤ ([1 / 10, 2 / 5, 2 / 5, 9 / 10] : List ℚ).length ∧
      IsSortedIndex [1 / 10, 2 / 5, 2 / 5, 9 / 10] [0, 1, 2, 3] ∧ 0 < 1 ∧
      1 < (distinct_values [1 / 10, 2 / 5, 2 / 5, 9 / 10]).length ∧
      IsColumnMin [1 / 10, 2 / 5, 2 / 5, 9 / 10] (1 / 10) ∧
      IsColumnMax [1 / 10, 2 / 5, 2 / 5, 9 / 10] (9 / 10) ∧
      ∃ thr, init_thresholds [1 / 10, 2 / 5, 2 / 5, 9 / 10] [0, 1, 2, 3]
          ([1 / 10, 2 / 5, 2 / 5, 9 / 10] : List ℚ).length 1 = some (thr, 1 + 1) ∧
        thr.length = 1 + 1 ∧
        (∀ j : Nat, j < 1 → thr[j]? =
          some (1 / 10 + (j : ℚ) * ((9 / 10 - 1 / 10) / ((1 : Nat) : ℚ)))) ∧
        thr[1]? = some FLT_MAX :=
  ⟨by decide, scenario_sorted_index, by decide, scenario_distinct_count, scenario_min,
    scenario_max,
    thresholds_binned_mode.1 [1 / 10, 2 / 5, 2 / 5, 9 / 10] [0, 1, 2, 3] 1 (1 / 10) (9 / 10)
      (by decide) scenario_sorted_index (by decide) scenario_distinct_count scenario_min
      scenario_max⟩

theorem learn_loop_spec {τ : Type} (ntrees esr : Nat) (validation : Option (Nat → ℚ))
    (fit : Nat → τ) (shrinkage : ℚ) :
    ∀ (fuel m : Nat) (s : LearnState τ),
      LearnInv ntrees esr validation fit shrinkage m s → ntrees - m ≤ fuel →
      ∃ rounds s', learn_loop ntrees esr validation fit shrinkage fuel m s =
          some (rounds, s') ∧
        LearnInv ntrees esr validation fit shrinkage rounds s' ∧ m ≤ rounds ∧
        ¬ (rounds < ntrees ∧ (esr = 0 ∨ rounds ≤ uint_add s'.validation_bestmodel esr)) := by
  intro fuel
  induction fuel with
  | zero =>
    intro m s inv hfuel
    have hm : ¬ (m < ntrees ∧ (esr = 0 ∨ m ≤ uint_add s.validation_bestmodel esr)) := by
      intro h
      omega
    exact ⟨m, s, by rw [learn_loop, if_neg hm], inv, le_rfl, hm⟩
  | succ fuel ih =>
    intro m s inv hfuel
    by_cases hcond : m < ntrees ∧ (esr = 0 ∨ m ≤ uint_add s.validation_bestmodel esr)
    · have hlen : s.ens.trees.length = m := by rw [inv.trees]; simp
      have hpush : s.ens.push (fit m) shrinkage =
          some { s.ens with trees := s.ens.trees ++ [(fit m, shrinkage)] } := by
        unfold Ensemble.push
        rw [if_pos (by rw [hlen, inv.cap]; exact hcond.1)]
      have htrees : s.ens.trees ++ [(fit m, shrinkage)] =
          (List.range (m + 1)).map (fun k => (fit k, shrinkage)) := by
        rw [List.range_succ, List.map_append, inv.trees]
        rfl
      have inv2 : LearnInv ntrees esr validation fit shrinkage (m + 1)
          (validation_update validation m
            { s with ens := { s.ens with trees := s.ens.trees ++ [(fit m, shrinkage)] } }) := by
        cases validation with
        | none =>
          refine ⟨inv.cap, htrees, hcond.1, fun h => by omega, fun h => ?_⟩
          simp at h
        | some metric =>
          simp only [validation_update]
          split
          · refine ⟨inv.cap, htrees, hcond.1, fun h => by omega, fun _ _ => ?_⟩
            simp only [Ensemble.get_size, List.length_append, List.length_singleton, hlen,
              Nat.add_sub_cancel, List.getLast?_concat]
            exact ⟨trivial, by omega⟩
          · rename_i hno
            refine ⟨inv.cap, htrees, hcond.1, fun h => by omega, fun hv _ => ?_⟩
            have hm1 : 1 ≤ m := by
              by_contra h0
              have : m = 0 := by omega
              exact hno (Or.inr (inv.start this).1)
            obtain ⟨h1, h2⟩ := inv.best hv hm1
            refine ⟨h1, ?_⟩
            show s.validation_bestmodel < m + 1
            omega
      obtain ⟨rounds, s', hrun, hinv, hle, hexit⟩ := ih (m + 1) _ inv2 (by omega)
      refine ⟨rounds, s', ?_, hinv, by omega, hexit⟩
      rw [learn_loop, if_pos hcond, hpush]
      exact hrun
    · exact ⟨m, s, by rw [learn_loop, if_neg hcond], inv, le_rfl, hcond⟩

/-- The rollback loop ends within `get_size` passes and cuts the ensemble
down to its first `validation_bestmodel + 1` entries. -/
theorem rollback_spec {τ : Type} (bestmodel : Nat) :
    ∀ (fuel : Nat) (e : Ensemble τ), e.trees.length ≤ fuel →
      rollback bestmodel fuel e =
        some { e with trees := e.trees.take (bestmodel + 1) } := by
  intro fuel
  induction fuel with
  | zero =>
    intro e hlen
    have hnil : e.trees = [] := List.eq_nil_of_length_eq_zero (by omega)
    cases e with
    | mk capacity trees =>
      simp only at hnil
      subst hnil
      simp [rollback, Ensemble.is_notempty]
  | succ fuel ih =>
    intro e hlen
    by_cases hcond : e.is_notempty ∧ e.get_size > bestmodel + 1
    · rw [rollback, if_pos hcond, ih e.pop (by simp [Ensemble.pop]; omega)]
      have hgt : bestmodel + 1 < e.trees.length := hcond.2
      simp only [Ensemble.pop, List.dropLast_eq_take]
      rw [List.take_take, min_eq_left (by omega)]
    · rw [rollback, if_neg hcond]
      have hle : e.trees.length ≤ bestmodel + 1 := by
        by_contra h
        apply hcond
        refine ⟨?_, by simp only [Ensemble.get_size]; omega⟩
        cases ht : e.trees with
        | nil => rw [ht] at h; simp at h
        | cons x t => simp [Ensemble.is_notempty, ht]
      rw [List.take_of_length_le hle]

/-- A run of the training part of `Mart::learn` with a validation set and a
capacity of at least one tree: it returns after at least one round; the last
marked iteration is `validation_bestmodel + 1`; the ensemble is cut back to
the trees of the rounds up to the best one. -/
theorem learn_run {τ : Type} (ntrees esr : Nat) (metric : Nat → ℚ) (fit : Nat → τ)
    (shrinkage : ℚ) (bestmodel0 : Nat) (hC : 1 ≤ ntrees) :
    ∃ rounds s, learn ntrees esr (some metric) fit shrinkage bestmodel0 = some (rounds, s) ∧
      1 ≤ rounds ∧ rounds ≤ ntrees ∧
      s.marked.getLast? = some (s.validation_bestmodel + 1) ∧
      s.validation_bestmodel < rounds ∧
      s.ens.capacity = ntrees ∧
      s.ens.trees = (List.range (s.validation_bestmodel + 1)).map
        (fun k => (fit k, shrinkage)) := by
  have inv0 : LearnInv ntrees esr (some metric) fit shrinkage 0
      { ens := Ensemble.set_capacity ntrees, best_metric_on_validation := 0,
        validation_bestmodel := bestmodel0, marked := [] } :=
    ⟨rfl, rfl, by omega, fun _ => ⟨rfl, rfl⟩, fun _ h => by omega⟩
  obtain ⟨rounds, s, hrun, hinv, _, hexit⟩ :=
    learn_loop_spec ntrees esr (some metric) fit shrinkage ntrees 0 _ inv0 (by omega)
  have hr1 : 1 ≤ rounds := by
    by_contra h
    have h0 : rounds = 0 := by omega
    apply hexit
    rw [h0]
    exact ⟨by omega, by omega⟩
  obtain ⟨hmark, hlt⟩ := hinv.best rfl hr1
  have hroll := rollback_spec s.validation_bestmodel s.ens.get_size s.ens le_rfl
  refine ⟨rounds, { s with ens := { s.ens with trees := s.ens.trees.take (s.validation_bestmodel + 1) } },
    ?_, hr1, hinv.m_le, hmark, hlt, hinv.cap, ?_⟩
  · simp only [learn, hrun, hroll]
  · show s.ens.trees.take (s.validation_bestmodel + 1) = _
    rw [hinv.trees, ← List.map_take, List.take_range, min_eq_left (by omega)]

theorem learn_loop_fuel {τ : Type} (ntrees esr : Nat) (validation : Option (Nat → ℚ))
    (fit : Nat → τ) (shrinkage : ℚ) :
    ∀ (f1 m : Nat) (s : LearnState τ) (r : Nat × LearnState τ),
      learn_loop ntrees esr validation fit shrinkage f1 m s = some r →
      ∀ f2, f1 ≤ f2 → learn_loop ntrees esr validation fit shrinkage f2 m s = some r := by
  intro f1
  induction f1 with
  | zero =>
    intro m s r h f2 _
    by_cases hcond : m < ntrees ∧ (esr = 0 ∨ m ≤ uint_add s.validation_bestmodel esr)
    · rw [learn_loop, if_pos hcond] at h
      cases h
    · rw [learn_loop, if_neg hcond] at h
      cases f2 <;> rw [learn_loop, if_neg hcond] <;> exact h
  | succ f1 ih =>
    intro m s r h f2 hle
    obtain ⟨f2', rfl⟩ : ∃ k, f2 = k + 1 := ⟨f2 - 1, by omega⟩
    by_cases hcond : m < ntrees ∧ (esr = 0 ∨ m ≤ uint_add s.validation_bestmodel esr)
    · rw [learn_loop, if_pos hcond] at h ⊢
      cases hp : s.ens.push (fit m) shrinkage with
      | none => rw [hp] at h; cases h
      | some e =>
        rw [hp] at h
        exact ih _ _ _ h f2' (by omega)
    · rw [learn_loop, if_neg hcond] at h ⊢
      exact h

/-- Scenario 4 of the specification: capacity 100, stop window 3, a validation
metric that improves at round 2 and then stays the same: the loop runs five
rounds and the ensemble is cut back to two trees. -/
theorem learn_scenario4 :
    learn 100 3 (some scenario4_metric) (fun m => m) (1 / 10) 0 =
      some (5, { ens := { capacity := 100, trees := [(0, 1 / 10), (1, 1 / 10)] },
                 best_metric_on_validation := 1 / 2,
                 validation_bestmodel := 1,
                 marked := [1, 2] }) := by
  have h6 : learn_loop 100 3 (some scenario4_metric) (fun m => m) (1 / 10) 6 0
      { ens := Ensemble.set_capacity 100, best_metric_on_validation := 0,
        validation_bestmodel := 0, marked := [] } =
      some (5, { ens := { capacity := 100,
                          trees := [(0, 1 / 10), (1, 1 / 10), (2, 1 / 10), (3, 1 / 10),
                            (4, 1 / 10)] },
                 best_metric_on_validation := 1 / 2,
                 validation_bestmodel := 1,
                 marked := [1, 2] }) := by
    norm_num [learn_loop, validation_update, Ensemble.push, Ensemble.set_capacity,
      Ensemble.get_size, scenario4_metric, uint_add, UINT_MAX]
  have h100 := learn_loop_fuel 100 3 (some scenario4_metric) (fun m => m) (1 / 10) 6 0 _ _ h6
    100 (by decide)
  simp only [learn, h100]
  norm_num [rollback, Ensemble.pop, Ensemble.get_size, Ensemble.is_notempty]

/-! ## Claims on the boosting loop -/

/-- C10, rollback: for every run of `Mart::learn` with a validation set and
capacity `C >= 1`, after the loop and the rollback the ensemble length is the
length it had when the best validation metric was last recorded
(`validation_bestmodel + 1`, the last marked iteration), and the ensemble
holds exactly the trees of the rounds up to that one: every tree appended
after the best round is discarded and no tree up to the best round is
removed. -/
theorem rollback_to_best {τ : Type} (C esr : Nat) (metric : Nat → ℚ) (fit : Nat → τ)
    (shrinkage : ℚ) (bestmodel0 : Nat) (hC : 1 ≤ C) :
    ∃ rounds s, learn C esr (some metric) fit shrinkage bestmodel0 = some (rounds, s) ∧
      s.ens.get_size = s.validation_bestmodel + 1 ∧
      s.marked.getLast? = some s.ens.get_size ∧
      s.ens.get_size ≤ rounds ∧
      s.ens.trees =
        (List.range (s.validation_bestmodel + 1)).map (fun k => (fit k, shrinkage)) := by
  obtain ⟨rounds, s, hrun, _, _, hmark, hlt, _, htrees⟩ :=
    learn_run C esr metric fit shrinkage bestmodel0 hC
  have hsize : s.ens.get_size = s.validation_bestmodel + 1 := by
    simp [Ensemble.get_size, htrees]
  exact ⟨rounds, s, hrun, hsize, by rw [hsize]; exact hmark, by omega, htrees⟩

/-- Witness of C10 on scenario 4: the ensemble is cut back to two trees. -/
theorem rollback_to_best_witness :
    1 ≤ 100 ∧
      ∃ (s : LearnState Nat),
        learn 100 3 (some scenario4_metric) (fun m => m) (1 / 10) 0 = some (5, s) ∧
        s.ens.get_size = 2 ∧ s.validation_bestmodel + 1 = 2 ∧
        s.marked.getLast? = some s.ens.get_size ∧
        s.ens.trees = (List.range 2).map (fun k => (k, (1 / 10 : ℚ))) := by
  obtain ⟨rounds, s, hrun, hsize, hmark, _, htrees⟩ :=
    rollback_to_best 100 3 scenario4_metric (fun m => m) (1 / 10) 0 (by decide)
  rw [learn_scenario4, Option.some.injEq, Prod.mk.injEq] at hrun
  obtain ⟨h5, hs⟩ := hrun
  subst h5
  subst hs
  exact ⟨by decide, _, learn_scenario4, hsize, rfl, hmark, htrees⟩

/-! ## The states of the boosting loop -/

theorem learn_loop_succ {τ : Type} (ntrees esr : Nat) (validation : Option (Nat → ℚ))
    (fit : Nat → τ) (shrinkage : ℚ) (fuel m : Nat) (s : LearnState τ) :
    learn_loop ntrees esr validation fit shrinkage (fuel + 1) m s =
      if m < ntrees ∧ (esr = 0 ∨ m ≤ uint_add s.validation_bestmodel esr) then
        (learn_body validation fit shrinkage m s).bind
          (fun s1 => learn_loop ntrees esr validation fit shrinkage fuel (m + 1) s1)
      else some (m, s) := by
  rw [learn_loop]
  split
  · unfold learn_body
    cases s.ens.push (fit m) shrinkage <;> rfl
  · rfl

/-- The state in which the boosting loop ends is one of the states the loop
passes through, and the loop condition fails in it. -/
theorem learn_loop_reach {τ : Type} (ntrees esr : Nat) (validation : Option (Nat → ℚ))
    (fit : Nat → τ) (shrinkage : ℚ) (bestmodel0 : Nat) :
    ∀ (fuel m : Nat) (s : LearnState τ) (r : Nat × LearnState τ),
      LearnReach ntrees esr validation fit shrinkage bestmodel0 m s →
      learn_loop ntrees esr validation fit shrinkage fuel m s = some r →
      LearnReach ntrees esr validation fit shrinkage bestmodel0 r.1 r.2 ∧
        ¬ (r.1 < ntrees ∧ (esr = 0 ∨ r.1 ≤ uint_add r.2.validation_bestmodel esr)) := by
  intro fuel
  induction fuel with
  | zero =>
    intro m s r hreach h
    by_cases hcond : m < ntrees ∧ (esr = 0 ∨ m ≤ uint_add s.validation_bestmodel esr)
    · rw [learn_loop, if_pos hcond] at h
      cases h
    · rw [learn_loop, if_neg hcond] at h
      cases h
      exact ⟨hreach, hcond⟩
  | succ fuel ih =>
    intro m s r hreach h
    rw [learn_loop_succ] at h
    by_cases hcond : m < ntrees ∧ (esr = 0 ∨ m ≤ uint_add s.validation_bestmodel esr)
    · rw [if_pos hcond] at h
      cases hb : learn_body validation fit shrinkage m s with
      | none => rw [hb] at h; cases h
      | some s1 =>
        rw [hb] at h
        exact ih (m + 1) s1 r (LearnReach.step m s s1 hreach hcond hb) h
    · rw [if_neg hcond] at h
      cases h
      exact ⟨hreach, hcond⟩

/-- In every state of the boosting loop the ensemble has capacity `ntrees`
and holds the trees of the rounds `0..m-1`, and `m` is at most `ntrees`. -/
theorem LearnReach_ens {τ : Type} (ntrees esr : Nat) (validation : Option (Nat → ℚ))
    (fit : Nat → τ) (shrinkage : ℚ) (bestmodel0 : Nat) (m : Nat) (s : LearnState τ)
    (h : LearnReach ntrees esr validation fit shrinkage bestmodel0 m s) :
    s.ens.capacity = ntrees ∧
      s.ens.trees = (List.range m).map (fun k => (fit k, shrinkage)) ∧ m ≤ ntrees := by
  induction h with
  | start => exact ⟨rfl, rfl, Nat.zero_le _⟩
  | step m s s1 _ hcond hbody ih =>
    obtain ⟨hcap, htrees, _⟩ := ih
    unfold learn_body Ensemble.push at hbody
    have hlen : s.ens.trees.length = m := by rw [htrees]; simp
    rw [if_pos (by rw [hlen, hcap]; exact hcond.1)] at hbody
    simp only [Option.some.injEq] at hbody
    subst hbody
    have hens : ∀ (t : LearnState τ), (validation_update validation m t).ens = t.ens := by
      intro t
      unfold validation_update
      cases validation with
      | none => rfl
      | some metric =>
        simp only
        split <;> rfl
    rw [hens]
    refine ⟨hcap, ?_, hcond.1⟩
    show s.ens.trees ++ [(fit m, shrinkage)] = _
    rw [List.range_succ, List.map_append, htrees]
    rfl

/-- The training part of `Mart::learn` returns: the loop ends in one of its
states, with the loop condition false, and with a validation set the rollback
cuts the ensemble to its first `validation_bestmodel + 1` trees. -/
theorem learn_result {τ : Type} (ntrees esr : Nat) (validation : Option (Nat → ℚ))
    (fit : Nat → τ) (shrinkage : ℚ) (bestmodel0 : Nat) :
    ∃ rounds s, LearnReach ntrees esr validation fit shrinkage bestmodel0 rounds s ∧
      ¬ (rounds < ntrees ∧ (esr = 0 ∨ rounds ≤ uint_add s.validation_bestmodel esr)) ∧
      learn ntrees esr validation fit shrinkage bestmodel0 =
        some (rounds,
          match validation with
          | none => s
          | some _ =>
            { s with ens := { s.ens with
                trees := s.ens.trees.take (s.validation_bestmodel + 1) } }) := by
  have inv0 : LearnInv ntrees esr validation fit shrinkage 0
      (learn_init ntrees bestmodel0) :=
    ⟨rfl, rfl, Nat.zero_le _, fun _ => ⟨rfl, rfl⟩, fun _ h => by omega⟩
  obtain ⟨rounds, s, hrun, _, _, _⟩ :=
    learn_loop_spec ntrees esr validation fit shrinkage ntrees 0 _ inv0 (by omega)
  obtain ⟨hreach, hexit⟩ :=
    learn_loop_reach ntrees esr validation fit shrinkage bestmodel0 ntrees 0 _ _
      LearnReach.start hrun
  refine ⟨rounds, s, hreach, hexit, ?_⟩
  have hrun2 : learn_loop ntrees esr validation fit shrinkage ntrees 0
      { ens := Ensemble.set_capacity ntrees, best_metric_on_validation := 0,
        validation_bestmodel := bestmodel0, marked := [] } = some (rounds, s) := hrun
  cases validation with
  | none => simp only [learn, hrun2]
  | some metric =>
    have hroll := rollback_spec s.validation_bestmodel s.ens.get_size s.ens le_rfl
    simp only [learn, hrun2, hroll]

/-- Without a validation set nothing in the loop changes
`validation_bestmodel`, no marker is printed, and the loop test still
compares `m` with the `unsigned int` sum `validation_bestmodel + esr`. -/
theorem LearnReach_no_validation {τ : Type} (ntrees esr : Nat) (fit : Nat → τ)
    (shrinkage : ℚ) (bestmodel0 : Nat) (m : Nat) (s : LearnState τ)
    (h : LearnReach ntrees esr none fit shrinkage bestmodel0 m s) :
    s.validation_bestmodel = bestmodel0 ∧ s.marked = [] ∧
      (esr ≠ 0 → m ≤ uint_add bestmodel0 esr + 1) := by
  induction h with
  | start => exact ⟨rfl, rfl, fun _ => by omega⟩
  | step m s s1 _ hcond hbody ih =>
    obtain ⟨hvb, hmk, _⟩ := ih
    unfold learn_body at hbody
    cases hp : s.ens.push (fit m) shrinkage with
    | none => rw [hp] at hbody; cases hbody
    | some e =>
      rw [hp] at hbody
      simp only [validation_update, Option.some.injEq] at hbody
      subst hbody
      refine ⟨hvb, hmk, fun he => ?_⟩
      rcases hcond.2 with h0 | hle
      · exact absurd h0 he
      · rw [hvb] at hle
        omega

/-- The number of boosting rounds and the final state of `Mart::learn` when
no validation set is supplied. -/
theorem learn_no_validation_run {τ : Type} (ntrees esr : Nat) (fit : Nat → τ)
    (shrinkage : ℚ) (bestmodel0 : Nat) :
    ∃ s, learn ntrees esr none fit shrinkage bestmodel0 =
        some (if esr = 0 then ntrees else min ntrees (uint_add bestmodel0 esr + 1), s) ∧
      s.ens.trees =
        (List.range
          (if esr = 0 then ntrees else min ntrees (uint_add bestmodel0 esr + 1))).map
          (fun k => (fit k, shrinkage)) ∧
      s.marked = [] := by
  obtain ⟨rounds, s, hreach, hexit, hlearn⟩ :=
    learn_result ntrees esr none fit shrinkage bestmodel0
  obtain ⟨hvb, hmk, hwin⟩ :=
    LearnReach_no_validation ntrees esr fit shrinkage bestmodel0 rounds s hreach
  obtain ⟨_, htrees, hle⟩ :=
    LearnReach_ens ntrees esr none fit shrinkage bestmodel0 rounds s hreach
  have hrounds : rounds =
      if esr = 0 then ntrees else min ntrees (uint_add bestmodel0 esr + 1) := by
    rw [hvb] at hexit
    by_cases he : esr = 0
    · rw [if_pos he]
      by_contra hne
      exact hexit ⟨by omega, Or.inl he⟩
    · rw [if_neg he]
      have h1 := hwin he
      by_cases hlt : rounds < ntrees
      · have : ¬ rounds ≤ uint_add bestmodel0 esr := fun h => hexit ⟨hlt, Or.inr h⟩
        rw [min_eq_right (by omega)]
        omega
      · rw [min_eq_left (by omega)]
        omega
  rw [← hrounds]
  exact ⟨s, hlearn, htrees, hmk⟩

/-! ## Claims on the boosting loop, continued -/

/-- C11: when no validation set is supplied, `Mart::learn` runs `C` boosting
rounds if the stop window `esr` is zero, but with a non-zero window it stops
after `min(C, validation_bestmodel + esr + 1)` rounds, where
`validation_bestmodel` still has the value it had on entry and the sum is the
`unsigned int` sum of the loop test; no rollback is made and the ensemble
holds one tree per round run. In particular, capacity 5 with window 2 and
`validation_bestmodel = 0` on entry gives 3 rounds and length 3, not 5; and
for every entry value `b` below `UINT_MAX`, capacity `b + 3` with window 1
gives `b + 2` rounds. -/
theorem learn_without_validation :
    (∀ (τ : Type) (C esr : Nat) (fit : Nat → τ) (shrinkage : ℚ) (bestmodel0 : Nat),
      ∃ s, learn C esr none fit shrinkage bestmodel0 =
          some (if esr = 0 then C else min C (uint_add bestmodel0 esr + 1), s) ∧
        s.ens.get_size = (if esr = 0 then C else min C (uint_add bestmodel0 esr + 1)) ∧
        s.marked = []) ∧
    (∃ s : LearnState Nat, learn 5 2 none (fun m => m) (1 / 10) 0 = some (3, s) ∧
      s.ens.get_size = 3) ∧
    (∀ b : Nat, b < UINT_MAX →
      ∃ s : LearnState Nat, learn (b + 3) 1 none (fun m => m) (1 / 10) b =
        some (b + 2, s) ∧ s.ens.get_size = b + 2) := by
  have hgen : ∀ (τ : Type) (C esr : Nat) (fit : Nat → τ) (shrinkage : ℚ) (bestmodel0 : Nat),
      ∃ s, learn C esr none fit shrinkage bestmodel0 =
          some (if esr = 0 then C else min C (uint_add bestmodel0 esr + 1), s) ∧
        s.ens.get_size = (if esr = 0 then C else min C (uint_add bestmodel0 esr + 1)) ∧
        s.marked = [] := by
    intro τ C esr fit shrinkage bestmodel0
    obtain ⟨s, hrun, htrees, hmk⟩ := learn_no_validation_run C esr fit shrinkage bestmodel0
    exact ⟨s, hrun, by simp [Ensemble.get_size, htrees], hmk⟩
  refine ⟨hgen, ?_, fun b hb => ?_⟩
  · obtain ⟨s, hrun, hsize, _⟩ := hgen Nat 5 2 (fun m => m) (1 / 10) 0
    have h : (if (2 : Nat) = 0 then 5 else min 5 (uint_add 0 2 + 1)) = 3 := by decide
    rw [h] at hrun hsize
    exact ⟨s, hrun, hsize⟩
  · obtain ⟨s, hrun, hsize, _⟩ := hgen Nat (b + 3) 1 (fun m => m) (1 / 10) b
    have hsum : uint_add b 1 = b + 1 := by
      unfold uint_add UINT_MAX at *
      exact Nat.mod_eq_of_lt (by omega)
    have h : (if (1 : Nat) = 0 then b + 3 else min (b + 3) (uint_add b 1 + 1)) = b + 2 := by
      rw [if_neg (by decide), hsum, min_eq_right (by omega)]
    rw [h] at hrun hsize
    exact ⟨s, hrun, hsize⟩

/-- Witness of C11 with `validation_bestmodel = 7` on entry: capacity 10 and
stop window 1 give 9 rounds. -/
theorem learn_without_validation_witness :
    7 < UINT_MAX ∧
      ∃ s : LearnState Nat, learn (7 + 3) 1 none (fun m => m) (1 / 10) 7 =
        some (7 + 2, s) ∧ s.ens.get_size = 7 + 2 :=
  ⟨by decide, learn_without_validation.2.2 7 (by decide)⟩

/-- In a state of the boosting loop in which the loop condition holds, the
push of line 149 is made on an ensemble of length `m < ntrees` and succeeds. -/
theorem LearnReach_body {τ : Type} (ntrees esr : Nat) (validation : Option (Nat → ℚ))
    (fit : Nat → τ) (shrinkage : ℚ) (bestmodel0 : Nat) (m : Nat) (s : LearnState τ)
    (h : LearnReach ntrees esr validation fit shrinkage bestmodel0 m s)
    (hcond : m < ntrees ∧ (esr = 0 ∨ m ≤ uint_add s.validation_bestmodel esr)) :
    s.ens.get_size = m ∧
      s.ens.push (fit m) shrinkage =
        some { s.ens with trees := s.ens.trees ++ [(fit m, shrinkage)] } ∧
      learn_body validation fit shrinkage m s =
        some (validation_update validation m
          { s with ens := { s.ens with trees := s.ens.trees ++ [(fit m, shrinkage)] } }) := by
  obtain ⟨hcap, htrees, _⟩ :=
    LearnReach_ens ntrees esr validation fit shrinkage bestmodel0 m s h
  have hlen : s.ens.trees.length = m := by rw [htrees]; simp
  have hpush : s.ens.push (fit m) shrinkage =
      some { s.ens with trees := s.ens.trees ++ [(fit m, shrinkage)] } := by
    unfold Ensemble.push
    rw [if_pos (by rw [hlen, hcap]; exact hcond.1)]
  exact ⟨hlen, hpush, by rw [learn_body, hpush]⟩

/-- C12, capacity invariant: starting from the empty ensemble with capacity
`ntrees`, in every state that the loop of `Mart::learn` passes through the
ensemble length is at most `ntrees` (and at most the capacity); whenever the
loop condition holds, so that `ens.push` is called, the current length is
strictly less than `ntrees` and the push succeeds; and the run returns with
an ensemble of length at most `ntrees` after the rollback. -/
theorem capacity_invariant {τ : Type} (ntrees esr : Nat) (validation : Option (Nat → ℚ))
    (fit : Nat → τ) (shrinkage : ℚ) (bestmodel0 : Nat) :
    (∀ (m : Nat) (s : LearnState τ),
      LearnReach ntrees esr validation fit shrinkage bestmodel0 m s →
      s.ens.get_size ≤ ntrees ∧ s.ens.get_size ≤ s.ens.capacity ∧
        ((m < ntrees ∧ (esr = 0 ∨ m ≤ uint_add s.validation_bestmodel esr)) →
          s.ens.get_size < ntrees ∧ ∃ e, s.ens.push (fit m) shrinkage = some e)) ∧
    ∃ rounds s, learn ntrees esr validation fit shrinkage bestmodel0 = some (rounds, s) ∧
      s.ens.get_size ≤ ntrees := by
  constructor
  · intro m s h
    obtain ⟨hcap, htrees, hle⟩ :=
      LearnReach_ens ntrees esr validation fit shrinkage bestmodel0 m s h
    have hsize : s.ens.get_size = m := by simp [Ensemble.get_size, htrees]
    refine ⟨by omega, by omega, fun hcond => ⟨by omega, ?_⟩⟩
    exact ⟨_, (LearnReach_body ntrees esr validation fit shrinkage bestmodel0 m s h hcond).2.1⟩
  · obtain ⟨rounds, s, hreach, _, hlearn⟩ :=
      learn_result ntrees esr validation fit shrinkage bestmodel0
    obtain ⟨_, htrees, hle⟩ :=
      LearnReach_ens ntrees esr validation fit shrinkage bestmodel0 rounds s hreach
    have hlen : s.ens.trees.length = rounds := by rw [htrees]; simp
    refine ⟨rounds, _, hlearn, ?_⟩
    cases validation with
    | none => simp only [Ensemble.get_size]; omega
    | some metric =>
      simp only [Ensemble.get_size, List.length_take]
      omega

/-- With a validation metric that is `0.0` in every round, the test
`best_metric_on_validation == 0.0f` holds in every round: each round is
recorded and marked as a new best. -/
theorem LearnReach_zero_metric {τ : Type} (ntrees esr : Nat) (metric : Nat → ℚ)
    (fit : Nat → τ) (shrinkage : ℚ) (bestmodel0 : Nat) (hz : ∀ m, metric m = 0)
    (m : Nat) (s : LearnState τ)
    (h : LearnReach ntrees esr (some metric) fit shrinkage bestmodel0 m s) :
    s.best_metric_on_validation = 0 ∧ s.marked = (List.range m).map (fun k => k + 1) ∧
      (1 ≤ m → s.validation_bestmodel + 1 = m) := by
  induction h with
  | start => exact ⟨rfl, rfl, fun h => by omega⟩
  | step m s s1 hreach hcond hbody ih =>
    obtain ⟨hbest, hmk, _⟩ := ih
    obtain ⟨hsize, _, hb⟩ :=
      LearnReach_body ntrees esr (some metric) fit shrinkage bestmodel0 m s hreach hcond
    rw [hb, Option.some.injEq] at hbody
    subst hbody
    have hlen : s.ens.trees.length = m := hsize
    simp only [validation_update, hbest, or_true, if_true, Ensemble.get_size,
      List.length_append, List.length_singleton, hlen, Nat.add_sub_cancel]
    refine ⟨hz m, ?_, fun _ => trivial⟩
    rw [hmk, List.range_succ, List.map_append]
    rfl

/-- The run of `Mart::learn` on a validation metric that is `0.0` in every
round: every round that is run is marked. -/
theorem learn_zero_metric_run {τ : Type} (ntrees esr : Nat) (metric : Nat → ℚ)
    (fit : Nat → τ) (shrinkage : ℚ) (bestmodel0 : Nat) (hz : ∀ m, metric m = 0) :
    ∃ rounds s, learn ntrees esr (some metric) fit shrinkage bestmodel0 =
        some (rounds, s) ∧
      (1 ≤ ntrees → 1 ≤ rounds) ∧
      s.marked = (List.range rounds).map (fun k => k + 1) ∧
      (1 ≤ rounds → s.validation_bestmodel + 1 = rounds) ∧
      s.ens.get_size = rounds := by
  obtain ⟨rounds, s, hreach, hexit, hlearn⟩ :=
    learn_result ntrees esr (some metric) fit shrinkage bestmodel0
  obtain ⟨_, hmk, hvb⟩ :=
    LearnReach_zero_metric ntrees esr metric fit shrinkage bestmodel0 hz rounds s hreach
  obtain ⟨_, htrees, hle⟩ :=
    LearnReach_ens ntrees esr (some metric) fit shrinkage bestmodel0 rounds s hreach
  have hlen : s.ens.trees.length = rounds := by rw [htrees]; simp
  refine ⟨rounds, _, hlearn, fun hC => ?_, hmk, hvb, ?_⟩
  · by_contra h
    have h0 : rounds = 0 := by omega
    apply hexit
    rw [h0]
    exact ⟨by omega, by omega⟩
  · simp only [Ensemble.get_size, List.length_take, hlen]
    by_cases h0 : rounds = 0
    · omega
    · have := hvb (by omega)
      omega

/-- C13, counterexample: with capacity 2 and a validation metric that is
`0.0` in both rounds, both rounds are marked as a new best (iterations 1 and
2) and `validation_bestmodel` ends at 1. -/
theorem zero_metric_is_marked :
    ∃ s : LearnState Nat, learn 2 0 (some (fun _ => 0)) (fun m => m) (1 / 10) 0 =
        some (2, s) ∧ s.marked = [1, 2] ∧ s.validation_bestmodel = 1 := by
  refine ⟨{ ens := { capacity := 2, trees := [(0, 1 / 10), (1, 1 / 10)] },
            best_metric_on_validation := 0, validation_bestmodel := 1,
            marked := [1, 2] }, ?_, rfl, rfl⟩
  norm_num [learn, learn_loop, rollback, validation_update, Ensemble.push, Ensemble.pop,
    Ensemble.set_capacity, Ensemble.get_size, Ensemble.is_notempty]

/-- C13, amended: for every run of `Mart::learn` with a validation set whose
validation metric is exactly `0.0` on every round, every round that is run is
recorded and marked as a new best: the update that sets
`validation_bestmodel` and prints the marker is taken in each round, because
`best_metric_on_validation == 0.0f` holds each time. The run returns, the
marked iterations are `1, 2, .., rounds`, `validation_bestmodel` ends at the
last round run, and with a capacity of at least one tree at least one round
is run. -/
theorem zero_metric_marks_every_round {τ : Type} (C esr : Nat) (metric : Nat → ℚ)
    (fit : Nat → τ) (shrinkage : ℚ) (bestmodel0 : Nat) (hz : ∀ m, metric m = 0) :
    ∃ rounds s, learn C esr (some metric) fit shrinkage bestmodel0 = some (rounds, s) ∧
      (1 ≤ C → 1 ≤ rounds) ∧
      s.marked = (List.range rounds).map (fun k => k + 1) ∧
      (1 ≤ rounds → s.validation_bestmodel + 1 = rounds) := by
  obtain ⟨rounds, s, hrun, h1, hmk, hvb, _⟩ :=
    learn_zero_metric_run C esr metric fit shrinkage bestmodel0 hz
  exact ⟨rounds, s, hrun, h1, hmk, hvb⟩

/-- Witness of C13, amended, with capacity 3 and stop window 1. -/
theorem zero_metric_marks_every_round_witness :
    (∀ m : Nat, (fun _ : Nat => (0 : ℚ)) m = 0) ∧
      ∃ rounds, ∃ s : LearnState Nat,
        learn 3 1 (some (fun _ => 0)) (fun m => m) (1 / 10) 0 = some (rounds, s) ∧
        (1 ≤ 3 → 1 ≤ rounds) ∧
        s.marked = (List.range rounds).map (fun k => k + 1) ∧
        (1 ≤ rounds → s.validation_bestmodel + 1 = rounds) :=
  ⟨fun _ => rfl,
    zero_metric_marks_every_round 3 1 (fun _ => 0) (fun m => m) (1 / 10) 0 (fun _ => rfl)⟩

/-- With a validation set, and a capacity and stop window whose sum does not
exceed `UINT_MAX + 1` (so that `validation_bestmodel + esr` never wraps
around), after at least one round the last marked iteration is
`validation_bestmodel + 1`, it is one of the rounds run, and the stop window
has not been passed. -/
theorem LearnReach_window {τ : Type} (ntrees esr : Nat) (metric : Nat → ℚ)
    (fit : Nat → τ) (shrinkage : ℚ) (bestmodel0 : Nat)
    (hov : ntrees + esr ≤ UINT_MAX + 1) (m : Nat) (s : LearnState τ)
    (h : LearnReach ntrees esr (some metric) fit shrinkage bestmodel0 m s) :
    (m = 0 → s.best_metric_on_validation = 0) ∧
      (1 ≤ m → s.marked.getLast? = some (s.validation_bestmodel + 1) ∧
        s.validation_bestmodel < m ∧ (esr ≠ 0 → m ≤ s.validation_bestmodel + esr + 1)) := by
  induction h with
  | start => exact ⟨fun _ => rfl, fun h => by omega⟩
  | step m s s1 hreach hcond hbody ih =>
    obtain ⟨hstart, hinv⟩ := ih
    obtain ⟨hsize, _, hb⟩ :=
      LearnReach_body ntrees esr (some metric) fit shrinkage bestmodel0 m s hreach hcond
    rw [hb, Option.some.injEq] at hbody
    subst hbody
    have hlen : s.ens.trees.length = m := hsize
    refine ⟨fun h => by omega, fun _ => ?_⟩
    simp only [validation_update]
    split
    · simp only [Ensemble.get_size, List.length_append, List.length_singleton, hlen,
        Nat.add_sub_cancel, List.getLast?_concat]
      exact ⟨trivial, by omega, fun _ => by omega⟩
    · rename_i hno
      have hm1 : 1 ≤ m := by
        by_contra h0
        exact hno (Or.inr (hstart (by omega)))
      obtain ⟨h1, h2, _⟩ := hinv hm1
      refine ⟨h1, ?_, fun he => ?_⟩
      · show s.validation_bestmodel < m + 1
        omega
      · show m + 1 ≤ s.validation_bestmodel + esr + 1
        rcases hcond.2 with h0 | hle
        · exact absurd h0 he
        · have hsum : uint_add s.validation_bestmodel esr = s.validation_bestmodel + esr := by
            unfold uint_add
            exact Nat.mod_eq_of_lt (by have := hcond.1; omega)
          rw [hsum] at hle
          omega

/-- The number of rounds of a run with a validation set, a stop window
`esr > 0` and no wrap-around of `validation_bestmodel + esr`. -/
theorem learn_window_run {τ : Type} (ntrees esr : Nat) (metric : Nat → ℚ)
    (fit : Nat → τ) (shrinkage : ℚ) (bestmodel0 : Nat) (hC : 1 ≤ ntrees) (hW : 0 < esr)
    (hov : ntrees + esr ≤ UINT_MAX + 1) :
    ∃ rounds s B, learn ntrees esr (some metric) fit shrinkage bestmodel0 =
        some (rounds, s) ∧
      s.marked.getLast? = some B ∧ B = s.validation_bestmodel + 1 ∧
      rounds = min ntrees (B + esr) := by
  obtain ⟨rounds, s, hreach, hexit, hlearn⟩ :=
    learn_result ntrees esr (some metric) fit shrinkage bestmodel0
  have hr1 : 1 ≤ rounds := by
    by_contra h
    have h0 : rounds = 0 := by omega
    apply hexit
    rw [h0]
    exact ⟨by omega, by omega⟩
  obtain ⟨hmark, hlt, hwin⟩ :=
    (LearnReach_window ntrees esr metric fit shrinkage bestmodel0 hov rounds s hreach).2 hr1
  obtain ⟨_, _, hle⟩ :=
    LearnReach_ens ntrees esr (some metric) fit shrinkage bestmodel0 rounds s hreach
  refine ⟨rounds, _, s.validation_bestmodel + 1, hlearn, hmark, rfl, ?_⟩
  have h1 := hwin (by omega)
  have hsum : uint_add s.validation_bestmodel esr = s.validation_bestmodel + esr := by
    unfold uint_add
    exact Nat.mod_eq_of_lt (by omega)
  by_cases hlt2 : rounds < ntrees
  · have : ¬ (esr = 0 ∨ rounds ≤ uint_add s.validation_bestmodel esr) :=
      fun h => hexit ⟨hlt2, h⟩
    rw [hsum] at this
    push_neg at this
    rw [min_eq_right (by omega)]
    omega
  · rw [min_eq_left (by omega)]
    omega

/-- The run with capacity 5, stop window `UINT_MAX` and the validation metric
`1, 2, 3, ..`: after the second round `validation_bestmodel + esr` is
`1 + UINT_MAX`, which is 0 in `unsigned int` arithmetic, and the loop test
`2 <= 0` fails. -/
theorem learn_wrap_instance :
    learn 5 4294967295 (some (fun m => (m : ℚ) + 1)) (fun m => m) (1 / 10) 0 =
      some (2, { ens := { capacity := 5, trees := [(0, 1 / 10), (1, 1 / 10)] },
                 best_metric_on_validation := 2,
                 validation_bestmodel := 1,
                 marked := [1, 2] }) := by
  have hloop : learn_loop 5 4294967295 (some (fun m => (m : ℚ) + 1)) (fun m => m) (1 / 10)
      5 0 (learn_init 5 0 : LearnState Nat) =
      some (2, { ens := { capacity := 5, trees := [(0, 1 / 10), (1, 1 / 10)] },
                 best_metric_on_validation := 2,
                 validation_bestmodel := 1,
                 marked := [1, 2] }) := by
    set_option maxRecDepth 100000 in
    simp only [learn_loop, learn_init, validation_update, Ensemble.push,
      Ensemble.set_capacity, Ensemble.get_size, uint_add, UINT_MAX]
    norm_num
  have hloop2 : learn_loop 5 4294967295 (some (fun m => (m : ℚ) + 1)) (fun m => m) (1 / 10)
      5 0 { ens := Ensemble.set_capacity 5, best_metric_on_validation := 0,
            validation_bestmodel := 0, marked := [] } =
      some (2, { ens := { capacity := 5, trees := [(0, 1 / 10), (1, 1 / 10)] },
                 best_metric_on_validation := 2,
                 validation_bestmodel := 1,
                 marked := [1, 2] }) := hloop
  simp only [learn, hloop2]
  norm_num [rollback, Ensemble.pop, Ensemble.get_size, Ensemble.is_notempty]

/-- C9, early-stop window: for every run of `Mart::learn` with a validation
set, stop window `W > 0` and capacity `C >= 1` with `C + W <= UINT_MAX + 1`,
and every sequence of per-round validation metrics, the run returns and the
number of boosting rounds executed is `min(C, B + W)`, where `B` is the
1-based round at which the best validation metric was last recorded (the last
marked iteration, `validation_bestmodel + 1`); in scenario 4 (capacity 100,
window 3, best at round 2) the loop halts after round 5. With the window
`W = UINT_MAX` the `unsigned int` sum `validation_bestmodel + esr` of the loop
test wraps around: with capacity 5 and a metric that rises in every round the
loop stops after 2 rounds, with `B = 2`, where `min(C, B + W)` is 5. -/
theorem early_stop_window :
    (∀ (τ : Type) (C W : Nat) (metric : Nat → ℚ) (fit : Nat → τ) (shrinkage : ℚ)
        (bestmodel0 : Nat), 1 ≤ C → 0 < W → C + W ≤ UINT_MAX + 1 →
      ∃ rounds s B, learn C W (some metric) fit shrinkage bestmodel0 = some (rounds, s) ∧
        s.marked.getLast? = some B ∧ B = s.validation_bestmodel + 1 ∧
        rounds = min C (B + W)) ∧
    (∃ s : LearnState Nat,
      learn 100 3 (some scenario4_metric) (fun m => m) (1 / 10) 0 = some (5, s) ∧
      s.marked.getLast? = some 2 ∧ 5 = min 100 (2 + 3)) ∧
    (∃ s : LearnState Nat,
      learn 5 4294967295 (some (fun m => (m : ℚ) + 1)) (fun m => m) (1 / 10) 0 =
        some (2, s) ∧
      s.marked.getLast? = some 2 ∧ min 5 (2 + 4294967295) = 5) := by
  refine ⟨fun τ C W metric fit shrinkage bestmodel0 hC hW hov =>
    learn_window_run C W metric fit shrinkage bestmodel0 hC hW hov, ?_, ?_⟩
  · exact ⟨_, learn_scenario4, rfl, by decide⟩
  · exact ⟨_, learn_wrap_instance, rfl, by decide⟩

/-- Witness of C9 on scenario 4: capacity 100, stop window 3 and a validation
metric that improves at round 2 and stagnates afterwards. -/
theorem early_stop_window_witness :
    1 ≤ 100 ∧ 0 < 3 ∧ 100 + 3 ≤ UINT_MAX + 1 ∧
      ∃ rounds, ∃ s : LearnState Nat, ∃ B,
        learn 100 3 (some scenario4_metric) (fun m => m) (1 / 10) 0 = some (rounds, s) ∧
        s.marked.getLast? = some B ∧ B = s.validation_bestmodel + 1 ∧
        rounds = min 100 (B + 3) :=
  ⟨by decide, by decide, by decide,
    early_stop_window.1 Nat 100 3 scenario4_metric (fun m => m) (1 / 10) 0 (by decide)
      (by decide) (by decide)⟩

/-- With non-negative validation metrics, after at least one round
`best_metric_on_validation` is the metric of round `validation_bestmodel`, no
round so far has a larger metric, and once it is positive no earlier round
reaches it. -/
theorem LearnReach_best {τ : Type} (ntrees esr : Nat) (metric : Nat → ℚ)
    (fit : Nat → τ) (shrinkage : ℚ) (bestmodel0 : Nat) (hnn : ∀ m, 0 ≤ metric m)
    (m : Nat) (s : LearnState τ)
    (h : LearnReach ntrees esr (some metric) fit shrinkage bestmodel0 m s) :
    (m = 0 → s.best_metric_on_validation = 0) ∧
      (1 ≤ m → s.validation_bestmodel < m ∧
        s.best_metric_on_validation = metric s.validation_bestmodel ∧
        (∀ j, j < m → metric j ≤ s.best_metric_on_validation) ∧
        (0 < s.best_metric_on_validation →
          ∀ j, j < s.validation_bestmodel → metric j < s.best_metric_on_validation)) := by
  induction h with
  | start => exact ⟨fun _ => rfl, fun h => by omega⟩
  | step m s s1 hreach hcond hbody ih =>
    obtain ⟨hstart, hinv⟩ := ih
    obtain ⟨hsize, _, hb⟩ :=
      LearnReach_body ntrees esr (some metric) fit shrinkage bestmodel0 m s hreach hcond
    rw [hb, Option.some.injEq] at hbody
    subst hbody
    have hlen : s.ens.trees.length = m := hsize
    refine ⟨fun h => by omega, fun _ => ?_⟩
    simp only [validation_update]
    split
    · rename_i hupd
      simp only [Ensemble.get_size, List.length_append, List.length_singleton, hlen,
        Nat.add_sub_cancel]
      have hprev : ∀ j, j < m → metric j ≤ s.best_metric_on_validation := by
        intro j hj
        exact (hinv (by omega)).2.2.1 j hj
      refine ⟨by omega, trivial, fun j hj => ?_, fun hpos j hj => ?_⟩
      · by_cases hjm : j = m
        · rw [hjm]
        · have hjp := hprev j (by omega)
          rcases hupd with hgt | h0
          · exact le_of_lt (lt_of_le_of_lt hjp hgt)
          · rw [h0] at hjp
            exact le_trans hjp (hnn m)
      · have hjp := hprev j hj
        rcases hupd with hgt | h0
        · exact lt_of_le_of_lt hjp hgt
        · rw [h0] at hjp
          exact lt_of_le_of_lt hjp hpos
    · rename_i hno
      have hm1 : 1 ≤ m := by
        by_contra h0
        exact hno (Or.inr (hstart (by omega)))
      obtain ⟨h1, h2, h3, h4⟩ := hinv hm1
      refine ⟨?_, h2, fun j hj => ?_, h4⟩
      · show s.validation_bestmodel < m + 1
        omega
      · show metric j ≤ s.best_metric_on_validation
        by_cases hjm : j = m
        · rw [hjm]
          by_contra hgt
          exact hno (Or.inl (not_le.mp hgt))
        · exact h3 j (by omega)

/-- C16, best-round selection: for every run of `Mart::learn` with a
validation set and capacity `C >= 1` in which all per-round validation metrics
are non-negative, the recorded best metric after each round is the running
maximum of the metrics seen so far; and when the maximum over the rounds
executed is strictly positive, the final (rolled-back) ensemble length is the
1-based index `k + 1` of the earliest executed round whose validation metric
equals that maximum. -/
theorem best_round_selection {τ : Type} (C esr : Nat) (metric : Nat → ℚ)
    (fit : Nat → τ) (shrinkage : ℚ) (bestmodel0 : Nat) (hC : 1 ≤ C)
    (hnn : ∀ m, 0 ≤ metric m) :
    (∀ (m : Nat) (s : LearnState τ),
      LearnReach C esr (some metric) fit shrinkage bestmodel0 m s → 1 ≤ m →
      IsRunningMax metric m s.best_metric_on_validation) ∧
    ∃ rounds s, learn C esr (some metric) fit shrinkage bestmodel0 = some (rounds, s) ∧
      1 ≤ rounds ∧ IsRunningMax metric rounds s.best_metric_on_validation ∧
      ((∃ j, j < rounds ∧ 0 < metric j) →
        ∃ k, k < rounds ∧ s.ens.get_size = k + 1 ∧
          metric k = s.best_metric_on_validation ∧ ∀ j, j < k → metric j < metric k) := by
  have hmax : ∀ (m : Nat) (s : LearnState τ),
      LearnReach C esr (some metric) fit shrinkage bestmodel0 m s → 1 ≤ m →
      IsRunningMax metric m s.best_metric_on_validation := by
    intro m s h hm
    obtain ⟨h1, h2, h3, _⟩ :=
      (LearnReach_best C esr metric fit shrinkage bestmodel0 hnn m s h).2 hm
    exact ⟨⟨s.validation_bestmodel, h1, h2.symm⟩, h3⟩
  refine ⟨hmax, ?_⟩
  obtain ⟨rounds, s, hreach, hexit, hlearn⟩ :=
    learn_result C esr (some metric) fit shrinkage bestmodel0
  have hr1 : 1 ≤ rounds := by
    by_contra h
    have h0 : rounds = 0 := by omega
    apply hexit
    rw [h0]
    exact ⟨by omega, by omega⟩
  obtain ⟨h1, h2, h3, h4⟩ :=
    (LearnReach_best C esr metric fit shrinkage bestmodel0 hnn rounds s hreach).2 hr1
  obtain ⟨_, htrees, _⟩ :=
    LearnReach_ens C esr (some metric) fit shrinkage bestmodel0 rounds s hreach
  have hlen : s.ens.trees.length = rounds := by rw [htrees]; simp
  refine ⟨rounds, _, hlearn, hr1, hmax rounds s hreach hr1, fun hpos => ?_⟩
  obtain ⟨j, hj, hjpos⟩ := hpos
  have hbpos : 0 < s.best_metric_on_validation := lt_of_lt_of_le hjpos (h3 j hj)
  refine ⟨s.validation_bestmodel, h1, ?_, h2.symm, fun i hi => ?_⟩
  · simp only [Ensemble.get_size, List.length_take, hlen]
    omega
  · rw [← h2]
    exact h4 hbpos i hi

/-- Witness of C16 on scenario 4 (metric `0.3`, then `0.5` in every round). -/
theorem best_round_selection_witness :
    1 ≤ 100 ∧ (∀ m, 0 ≤ scenario4_metric m) ∧
      ((∀ (m : Nat) (s : LearnState Nat),
        LearnReach 100 3 (some scenario4_metric) (fun m => m) (1 / 10) 0 m s → 1 ≤ m →
        IsRunningMax scenario4_metric m s.best_metric_on_validation) ∧
      ∃ rounds s, learn 100 3 (some scenario4_metric) (fun m => m) (1 / 10) 0 =
          some (rounds, s) ∧
        1 ≤ rounds ∧ IsRunningMax scenario4_metric rounds s.best_metric_on_validation ∧
        ((∃ j, j < rounds ∧ 0 < scenario4_metric j) →
          ∃ k, k < rounds ∧ s.ens.get_size = k + 1 ∧
            scenario4_metric k = s.best_metric_on_validation ∧
            ∀ j, j < k → scenario4_metric j < scenario4_metric k)) := by
  have hnn : ∀ m, 0 ≤ scenario4_metric m := by
    intro m
    unfold scenario4_metric
    split <;> norm_num
  exact ⟨by decide, hnn,
    best_round_selection 100 3 scenario4_metric (fun m => m) (1 / 10) 0 (by decide) hnn⟩

/-! ## The residuals -/

theorem compute_pseudoresponses_for_spec {α : Type} [Sub α]
    (labels trainingmodelscores : List α) (N : Nat) (hl : labels.length = N)
    (hs : trainingmodelscores.length = N) :
    ∀ (n i : Nat) (pr : List α), i + n = N → pr.length = N →
      (∀ k, k < i → ∃ y f, labels[k]? = some y ∧ trainingmodelscores[k]? = some f ∧
        pr[k]? = some (y - f)) →
      ∃ out, compute_pseudoresponses_for labels trainingmodelscores n i pr = some out ∧
        out.length = N ∧
        ∀ k, k < N → ∃ y f, labels[k]? = some y ∧ trainingmodelscores[k]? = some f ∧
          out[k]? = some (y - f) := by
  intro n
  induction n with
  | zero =>
    intro i pr hi hlen hdone
    have : i = N := by omega
    subst this
    exact ⟨pr, rfl, hlen, hdone⟩
  | succ n ih =>
    intro i pr hi hlen hdone
    have hiN : i < N := by omega
    have hy : labels[i]? = some labels[i] := List.getElem?_eq_getElem (by omega)
    have hf : trainingmodelscores[i]? = some trainingmodelscores[i] :=
      List.getElem?_eq_getElem (by omega)
    have hst : store_at pr i (labels[i] - trainingmodelscores[i]) =
        some (pr.set i (labels[i] - trainingmodelscores[i])) := by
      unfold store_at
      rw [if_pos (by omega)]
    obtain ⟨out, hrun, holen, hout⟩ :=
      ih (i + 1) (pr.set i (labels[i] - trainingmodelscores[i])) (by omega) (by simp [hlen])
        (by
          intro k hk
          by_cases hki : k = i
          · subst hki
            exact ⟨_, _, hy, hf, by simp [List.getElem?_set, hlen, hiN]⟩
          · obtain ⟨y, f, h1, h2, h3⟩ := hdone k (by omega)
            refine ⟨y, f, h1, h2, ?_⟩
            rw [List.getElem?_set, if_neg (by omega)]
            exact h3)
    refine ⟨out, ?_, holen, hout⟩
    rw [compute_pseudoresponses_for, hy, hf]
    simp only [hst]
    exact hrun

/-! ## Claims on the residuals and on the model header -/

/-- C14: for every label array and every model-score snapshot of length `N`
(and a residual array of length `N`), `compute_pseudoresponses` returns, and
afterwards `pseudoresponses[i] = label[i] - trainingmodelscores[i]` for every
`0 <= i < N`, and the model-score array is unchanged. -/
theorem pseudoresponses_are_residuals {α : Type} [Sub α]
    (labels trainingmodelscores pseudoresponses : List α)
    (hs : trainingmodelscores.length = labels.length)
    (hp : pseudoresponses.length = labels.length) :
    ∃ out, compute_pseudoresponses labels trainingmodelscores pseudoresponses
        labels.length = some (out, trainingmodelscores) ∧
      out.length = labels.length ∧
      ∀ i, i < labels.length →
        ∃ y f, labels[i]? = some y ∧ trainingmodelscores[i]? = some f ∧
          out[i]? = some (y - f) := by
  obtain ⟨out, hrun, hlen, hout⟩ :=
    compute_pseudoresponses_for_spec labels trainingmodelscores labels.length rfl hs
      labels.length 0 pseudoresponses (by omega) hp (fun k hk => by omega)
  exact ⟨out, by simp only [compute_pseudoresponses, hrun], hlen, hout⟩

/-- Witness of C14 on the labels `3, 2, 1, 0` and the scores `1, 1, 2, 5`. -/
theorem pseudoresponses_are_residuals_witness :
    ([1, 1, 2, 5] : List Int).length = ([3, 2, 1, 0] : List Int).length ∧
      ([0, 0, 0, 0] : List Int).length = ([3, 2, 1, 0] : List Int).length ∧
      ∃ out, compute_pseudoresponses ([3, 2, 1, 0] : List Int) [1, 1, 2, 5] [0, 0, 0, 0]
          ([3, 2, 1, 0] : List Int).length = some (out, [1, 1, 2, 5]) ∧
        out.length = ([3, 2, 1, 0] : List Int).length ∧
        ∀ i, i < ([3, 2, 1, 0] : List Int).length →
          ∃ y f, ([3, 2, 1, 0] : List Int)[i]? = some y ∧
            ([1, 1, 2, 5] : List Int)[i]? = some f ∧ out[i]? = some (y - f) :=
  ⟨by decide, by decide,
    pseudoresponses_are_residuals [3, 2, 1, 0] [1, 1, 2, 5] [0, 0, 0, 0] (by decide)
      (by decide)⟩

/-- C15, model header of `Mart::put`: for every configuration the first six
lines are, in this order, the ranker name, the max number of trees (with the
literal of line 21 as it is in the source, a no-break space U+00A0 after the
`#`: its first characters have the code points 35, 160, 109), the number of
tree leaves, the shrinkage, the min leaf support and the threshold count; the
threshold-count line is the literal `unlimited` line if and only if
`nthresholds = 0`, and otherwise carries the cap value; the early-stopping
line is present if and only if `esr != 0`, and then it is the seventh and
last line and reports `esr`. -/
theorem put_header (c : MartParams) :
    (put c).take 5 =
        [[Item.text "# Ranker: MART"],
         [Item.text "#\u00a0max no. of trees = ", Item.uint c.ntrees],
         [Item.text "# no. of tree leaves = ", Item.uint c.ntreeleaves],
         [Item.text "# shrinkage = ", Item.real c.shrinkage],
         [Item.text "# min leaf support = ", Item.uint c.minleafsupport]] ∧
      ((put c)[5]? = some [Item.text "# no. of thresholds = unlimited"] ↔
        c.nthresholds = 0) ∧
      (c.nthresholds ≠ 0 →
        (put c)[5]? = some [Item.text "# no. of thresholds = ", Item.uint c.nthresholds]) ∧
      ((∃ line ∈ put c,
          line.head? = some (Item.text "# no. of no gain rounds before early stop = ")) ↔
        c.esr ≠ 0) ∧
      (c.esr ≠ 0 → (put c).length = 7 ∧
        (put c).getLast? =
          some [Item.text "# no. of no gain rounds before early stop = ", Item.uint c.esr]) ∧
      (c.esr = 0 → (put c).length = 6) ∧
      (("#\u00a0max no. of trees = ").toList.take 3).map Char.toNat = [35, 160, 109] := by
  refine ⟨?_, ?_, ?_, ?_, ?_, ?_, by decide⟩ <;> unfold put <;>
    by_cases ht : c.nthresholds = 0 <;> by_cases he : c.esr = 0 <;> simp [ht, he]

/-! ## The states of the sort loops: stack bound and fuel -/

/-- The scan of `Mart::init` with any permutation `idx` of `0..N-1`: it
returns, none of its reads `features[idx[j]]` and none of its writes into
`uniqs` being out of bounds, with between 1 and `N` values collected, and at
most `T + 1` when a cap is set. -/
theorem uniqs_scan_safe (features : List ℚ) (idx : List Nat) (T : Nat)
    (hperm : idx.Perm (List.range features.length)) :
    ∀ (fuel j : Nat) (uniqs : List ℚ), j ≤ features.length → 1 ≤ uniqs.length →
      uniqs.length ≤ j → (T ≠ 0 → uniqs.length ≤ T + 1) → features.length - j ≤ fuel →
      ∃ out, uniqs_scan features idx features.length T
          (if T = 0 then features.length + 1 else T + 1) fuel j uniqs = some out ∧
        1 ≤ out.length ∧ out.length ≤ features.length ∧ (T ≠ 0 → out.length ≤ T + 1) := by
  have hSlen := sorted_column_length features idx hperm
  intro fuel
  induction fuel with
  | zero =>
    intro j uniqs hj h1 hlen hcap hfuel
    have hjN : j = features.length := by omega
    refine ⟨uniqs, ?_, h1, by omega, hcap⟩
    simp [uniqs_scan, hjN]
  | succ fuel ih =>
    intro j uniqs hj h1 hlen hcap hfuel
    by_cases hcond : j < features.length ∧ (T = 0 ∨ uniqs.length ≠ T + 1)
    · obtain ⟨hjN, hT⟩ := hcond
      have hf : feature_at features idx j = some (sorted_column features idx)[j] := by
        rw [feature_at_sorted_column features idx hperm,
          List.getElem?_eq_getElem (by omega)]
      have hl : uniqs[uniqs.length - 1]? = some uniqs[uniqs.length - 1] :=
        List.getElem?_eq_getElem (by omega)
      by_cases hlt : uniqs[uniqs.length - 1] < (sorted_column features idx)[j]
      · have hroom : uniqs.length < (if T = 0 then features.length + 1 else T + 1) := by
          split
          · omega
          · rename_i hT0
            have := hcap hT0
            rcases hT with hT | hT
            · exact absurd hT hT0
            · omega
        obtain ⟨out, hrun, hout⟩ :=
          ih (j + 1) (uniqs ++ [(sorted_column features idx)[j]]) (by omega) (by simp)
            (by simp; omega)
            (by
              intro hT0
              have := hcap hT0
              rcases hT with hT | hT
              · exact absurd hT hT0
              · simp; omega)
            (by omega)
        refine ⟨out, ?_, hout⟩
        rw [uniqs_scan, if_pos ⟨hjN, hT⟩, hf, hl]
        simp only [hlt, if_true, uniqs_push, hroom]
        exact hrun
      · obtain ⟨out, hrun, hout⟩ := ih (j + 1) uniqs (by omega) h1 (by omega) hcap (by omega)
        refine ⟨out, ?_, hout⟩
        rw [uniqs_scan, if_pos ⟨hjN, hT⟩, hf, hl]
        simp only [hlt, if_false]
        exact hrun
    · exact ⟨uniqs, by rw [uniqs_scan, if_neg hcond], h1, by omega, hcap⟩

/-- Below `UINT_MAX` the sums of lines 62-63 do not wrap around: the buffer is
allocated with `N + 1` cells when `T = 0` and with `T + 1` cells otherwise. -/
theorem uniqs_capacity_exact (N T : Nat) (hT : T < UINT_MAX) (hN : T = 0 → N < UINT_MAX) :
    uniqs_capacity N T = (if T = 0 then N + 1 else T + 1) := by
  unfold uniqs_capacity uint_add
  unfold UINT_MAX at *
  split
  · rename_i h0
    have := hN h0
    exact Nat.mod_eq_of_lt (by omega)
  · exact Nat.mod_eq_of_lt (by omega)

/-- C20, threshold scratch-buffer bound: with the cap `T = 4294967295`
(`UINT_MAX`) the size `nthresholds + 1` of lines 62-63 wraps around to 0, the
buffer is allocated with no cell and the first write `uniqs[0]` of line 65 is
already outside it. For every feature column of `N >= 1` values, every
permutation `idx` of `0..N-1` and every cap `T < UINT_MAX` (with
`N < UINT_MAX` when `T = 0`), the allocated capacity is `N + 1` when `T = 0`
and `T + 1` otherwise, and the first write, the unique-value scan and the
append of the sentinel all return, as do the reads `features[idx[0]]` and
`features[idx[N-1]]`: in the embedding a write `uniqs[uniqs_size++] = v`
succeeds only at an index strictly below the capacity and a read
`features[idx[j]]` only with `idx[j]` in `[0, N-1]`. -/
theorem uniqs_buffer_bound :
    (uniqs_capacity 1 4294967295 = 0 ∧
      feature_at [1 / 2] [0] 0 = some (1 / 2) ∧
      uniqs_push (uniqs_capacity 1 4294967295) [] (1 / 2) = none) ∧
    (∀ (features : List ℚ) (idx : List Nat) (T : Nat), 1 ≤ features.length →
      idx.Perm (List.range features.length) → T < UINT_MAX →
      (T = 0 → features.length < UINT_MAX) →
      uniqs_capacity features.length T = (if T = 0 then features.length + 1 else T + 1) ∧
      ∃ first uniqs, feature_at features idx 0 = some first ∧
        uniqs_push (uniqs_capacity features.length T) [] first = some [first] ∧
        uniqs_scan features idx features.length T (uniqs_capacity features.length T)
          features.length 1 [first] = some uniqs ∧
        uniqs.length ≤ features.length ∧ (T ≠ 0 → uniqs.length ≤ T + 1) ∧
        ((uniqs.length ≤ T ∨ T = 0) →
          ∃ thr, uniqs_push (uniqs_capacity features.length T) uniqs FLT_MAX = some thr) ∧
        ∃ last, feature_at features idx (features.length - 1) = some last) ∧
    (∀ (capacity : Nat) (uniqs : List ℚ) (v : ℚ) (r : List ℚ),
      uniqs_push capacity uniqs v = some r → uniqs.length < capacity) ∧
    (∀ (features : List ℚ) (idx : List Nat) (j : Nat) (v : ℚ),
      feature_at features idx j = some v → ∃ k, idx[j]? = some k ∧ k < features.length) := by
  refine ⟨⟨by decide, by simp [feature_at], ?_⟩, ?_, ?_, ?_⟩
  · have h0 : uniqs_capacity 1 4294967295 = 0 := by decide
    rw [h0]
    simp [uniqs_push]
  · intro features idx T hN hperm hT hNT
    have hexact := uniqs_capacity_exact features.length T hT hNT
    have hSlen := sorted_column_length features idx hperm
    have hfirst : feature_at features idx 0 = some (sorted_column features idx)[0] := by
      rw [feature_at_sorted_column features idx hperm, List.getElem?_eq_getElem (by omega)]
    have hlast : feature_at features idx (features.length - 1) =
        some (sorted_column features idx)[features.length - 1] := by
      rw [feature_at_sorted_column features idx hperm, List.getElem?_eq_getElem (by omega)]
    obtain ⟨uniqs, hrun, h1, hle, hcap⟩ :=
      uniqs_scan_safe features idx T hperm features.length 1
        [(sorted_column features idx)[0]] hN (by simp) (by simp) (fun _ => by simp)
        (by omega)
    have hcap0 : ([] : List ℚ).length < (if T = 0 then features.length + 1 else T + 1) := by
      split <;> simp
    have hpush : (uniqs.length ≤ T ∨ T = 0) →
        uniqs.length < (if T = 0 then features.length + 1 else T + 1) := by
      intro hc
      split
      · omega
      · rename_i hT0
        rcases hc with hc | hc
        · omega
        · exact absurd hc hT0
    refine ⟨hexact, _, uniqs, hfirst, ?_, ?_, hle, hcap, fun hc => ?_, _, hlast⟩
    · rw [hexact]
      simp only [uniqs_push, hcap0, if_true, List.nil_append]
    · rw [hexact]
      exact hrun
    · rw [hexact]
      exact ⟨uniqs ++ [FLT_MAX], by simp only [uniqs_push, hpush hc, if_true]⟩
  · intro capacity uniqs v r h
    unfold uniqs_push at h
    by_contra hge
    rw [if_neg hge] at h
    cases h
  · intro features idx j v h
    unfold feature_at at h
    cases hk : idx[j]? with
    | none => rw [hk] at h; cases h
    | some k =>
      refine ⟨k, rfl, ?_⟩
      rw [hk] at h
      exact (List.getElem?_eq_some.mp h).1

/-- Witness of C20 on the column `0.1, 0.4, 0.4, 0.9` read in the order
`3, 0, 2, 1`, with cap 2: the buffer has 3 cells and the writes and reads of
the scan stay within bounds. -/
theorem uniqs_buffer_bound_witness :
    1 ≤ ([1 / 10, 2 / 5, 2 / 5, 9 / 10] : List ℚ).length ∧
      ([3, 0, 2, 1] : List Nat).Perm
        (List.range ([1 / 10, 2 / 5, 2 / 5, 9 / 10] : List ℚ).length) ∧
      2 < UINT_MAX ∧
      uniqs_capacity ([1 / 10, 2 / 5, 2 / 5, 9 / 10] : List ℚ).length 2 =
        (if 2 = 0 then ([1 / 10, 2 / 5, 2 / 5, 9 / 10] : List ℚ).length + 1 else 2 + 1) ∧
      ∃ first uniqs, feature_at [1 / 10, 2 / 5, 2 / 5, 9 / 10] [3, 0, 2, 1] 0 = some first ∧
        uniqs_push (uniqs_capacity ([1 / 10, 2 / 5, 2 / 5, 9 / 10] : List ℚ).length 2) []
          first = some [first] ∧
        uniqs_scan [1 / 10, 2 / 5, 2 / 5, 9 / 10] [3, 0, 2, 1]
          ([1 / 10, 2 / 5, 2 / 5, 9 / 10] : List ℚ).length 2
          (uniqs_capacity ([1 / 10, 2 / 5, 2 / 5, 9 / 10] : List ℚ).length 2)
          ([1 / 10, 2 / 5, 2 / 5, 9 / 10] : List ℚ).length 1 [first] = some uniqs ∧
        uniqs.length ≤ ([1 / 10, 2 / 5, 2 / 5, 9 / 10] : List ℚ).length ∧
        (2 ≠ 0 → uniqs.length ≤ 2 + 1) ∧
        ((uniqs.length ≤ 2 ∨ 2 = 0) →
          ∃ thr, uniqs_push
            (uniqs_capacity ([1 / 10, 2 / 5, 2 / 5, 9 / 10] : List ℚ).length 2) uniqs
            FLT_MAX = some thr) ∧
        ∃ last, feature_at [1 / 10, 2 / 5, 2 / 5, 9 / 10] [3, 0, 2, 1]
          (([1 / 10, 2 / 5, 2 / 5, 9 / 10] : List ℚ).length - 1) = some last :=
  ⟨by decide, by decide, by decide,
    uniqs_buffer_bound.2.1 [1 / 10, 2 / 5, 2 / 5, 9 / 10] [3, 0, 2, 1] 2 (by decide)
      (by decide) (by decide) (by decide)⟩

end QuickRank
